import Mathlib

/-!
Verification development for a small Lisp-family interpreter (mal-rust).

The development shallowly embeds the interpreter's Rust sources:
`src/types.rs` (value model and printer), `src/reader.rs` (tokenizer and
recursive-descent parser), `src/types/env.rs` (scope-chain environment),
`src/eval.rs` (evaluator) and `src/eval/builtin.rs` (native functions).

Modelling conventions:
- `i64` arithmetic is modelled on `Int` with explicit two's-complement
  wrapping (`wrap64`), corresponding to Rust release-build semantics.
- `Rc<RefCell<EnvironmentInner>>` sharing is modelled as an arena:
  an `EvalState` holds the list of frames and an `Environment` value is a
  frame index.  Frames are created only as children of existing frames, so
  parent indices are strictly smaller than child indices, exactly as in the
  Rust program, where a parent pointer is fixed at construction time from an
  already-existing environment (hence chains are acyclic there as well).
- `HashMap<String, _>` is modelled as an association list where insertion
  prepends and lookup takes the first match (extensionally the same
  insert/overwrite behaviour).
- `panic!`, `unimplemented!`, `unreachable!` and `Vec` index panics are
  modelled as an explicit `panic` outcome, distinct from recoverable errors.
- Recursive functions whose termination is not structural in the Rust code
  (the parser, environment-chain search, and `eval`) take an explicit fuel
  argument, so that every definition is executable and kernel-reducible;
  exhaustion is a distinct outcome and sufficiency of the fuel supplied at
  the entry points is proved where a claim needs it.
-/

/-- Two's-complement wrapping into the `i64` range, the Rust release-build
semantics of `i64` arithmetic overflow. -/
def wrap64 (i : Int) : Int := (i + 2 ^ 63) % 2 ^ 64 - 2 ^ 63

/-- First-match lookup in an association list (models `HashMap` lookup). -/
def lookupKey {α : Type} (l : List (String × α)) (k : String) : Option α :=
  match l with
  | [] => none
  | (k', v) :: rest => if k' = k then some v else lookupKey rest k

/-- Key-membership test (models `HashMap::contains_key`). -/
def containsKey {α : Type} (l : List (String × α)) (k : String) : Bool :=
  match l with
  | [] => false
  | (k', _) :: rest => k' = k || containsKey rest k

/-- `MalAtom` from src/types.rs. -/
inductive MalAtom : Type where
  | Nil : MalAtom
  | True : MalAtom
  | False : MalAtom
  | Sym (s : String) : MalAtom
  | Str (s : String) : MalAtom
  | Int (i : Int) : MalAtom
deriving DecidableEq

/-- `MalVal` from src/types.rs.  The `Fn` variant inlines the fields of the
Rust `MalFn` struct: the captured `Environment` (a frame index in the arena
model), the parameter names `binds`, and the unevaluated `body`. -/
inductive MalVal : Type where
  | Atom (a : MalAtom) : MalVal
  | List (l : List MalVal) : MalVal
  | Vector (l : List MalVal) : MalVal
  | AssocArray (l : List MalVal) : MalVal
  | Fn (env : Nat) (binds : List String) (body : MalVal) : MalVal

mutual

/-- Structural equality on values (`PartialEq for MalVal`).  One deliberate
divergence: the Rust `PartialEq` on a closure's captured `Environment`
compares the pointed-to frame contents recursively, while the arena model
compares frame indices; no claim depends on `=` applied to closures. -/
def MalVal.beq : MalVal → MalVal → Bool
  | .Atom a, .Atom b => a = b
  | .List l, .List m => beqValList l m
  | .Vector l, .Vector m => beqValList l m
  | .AssocArray l, .AssocArray m => beqValList l m
  | .Fn e b bd, .Fn e' b' bd' => e = e' && b = b' && MalVal.beq bd bd'
  | _, _ => false

/-- Elementwise equality of value lists. -/
def beqValList : List MalVal → List MalVal → Bool
  | [], [] => true
  | x :: xs, y :: ys => MalVal.beq x y && beqValList xs ys
  | _, _ => false

end

mutual

def MalVal.beq_iff : ∀ a b : MalVal, MalVal.beq a b = true ↔ a = b
  | .Atom a, .Atom b => by simp [MalVal.beq]
  | .Atom _, .List _ | .Atom _, .Vector _ | .Atom _, .AssocArray _
  | .Atom _, .Fn _ _ _ => by simp [MalVal.beq]
  | .List _, .Atom _ | .List _, .Vector _ | .List _, .AssocArray _
  | .List _, .Fn _ _ _ => by simp [MalVal.beq]
  | .List l, .List m => by simp [MalVal.beq, beqValList_iff l m]
  | .Vector _, .Atom _ | .Vector _, .List _ | .Vector _, .AssocArray _
  | .Vector _, .Fn _ _ _ => by simp [MalVal.beq]
  | .Vector l, .Vector m => by simp [MalVal.beq, beqValList_iff l m]
  | .AssocArray _, .Atom _ | .AssocArray _, .List _ | .AssocArray _, .Vector _
  | .AssocArray _, .Fn _ _ _ => by simp [MalVal.beq]
  | .AssocArray l, .AssocArray m => by simp [MalVal.beq, beqValList_iff l m]
  | .Fn _ _ _, .Atom _ | .Fn _ _ _, .List _ | .Fn _ _ _, .Vector _
  | .Fn _ _ _, .AssocArray _ => by simp [MalVal.beq]
  | .Fn e b bd, .Fn e' b' bd' => by
    simp [MalVal.beq, MalVal.beq_iff bd bd', and_assoc]

def beqValList_iff : ∀ l m : List MalVal, beqValList l m = true ↔ l = m
  | [], [] => by simp [beqValList]
  | [], _ :: _ => by simp [beqValList]
  | _ :: _, [] => by simp [beqValList]
  | x :: xs, y :: ys => by
    simp [beqValList, MalVal.beq_iff x y, beqValList_iff xs ys]

end

instance : DecidableEq MalVal :=
  fun a b => decidable_of_iff _ (MalVal.beq_iff a b)

/-- Decimal digit to character. -/
def digitChar (n : Nat) : Char := Char.ofNat (48 + n)

/-- Decimal rendering of a natural number, most-significant digit first,
with explicit fuel (the fuel is a termination artifact; `natToChars`
supplies enough). -/
def natToCharsF : Nat → Nat → List Char
  | 0, _ => []
  | fuel + 1, n =>
    if n < 10 then [digitChar n]
    else natToCharsF fuel (n / 10) ++ [digitChar (n % 10)]

/-- Decimal rendering of a natural number. -/
def natToChars (n : Nat) : List Char := natToCharsF (n + 1) n

/-- Decimal rendering of an integer, as Rust's `Display` for `i64`. -/
def intToString (i : Int) : String :=
  if i < 0 then String.mk (Char.ofNat 45 :: natToChars i.natAbs)
  else String.mk (natToChars i.toNat)

/-- The double-quote character. -/
def chQuote : Char := Char.ofNat 34

/-- `Display for MalAtom` from src/types.rs. -/
def MalAtom.str : MalAtom → String
  | .Nil => "nil"
  | .True => "true"
  | .False => "false"
  | .Sym s => s
  | .Str s => String.mk (chQuote :: s.data) ++ String.mk [chQuote]
  | .Int i => intToString i

mutual

/-- `Display for MalVal` from src/types.rs. -/
def MalVal.str : MalVal → String
  | .Atom a => a.str
  | .List l => "(" ++ seqStr l ++ ")"
  | .Vector l => "[" ++ seqStr l ++ "]"
  | .AssocArray l => "\x7b" ++ seqStr l ++ "\x7d"
  | .Fn _ _ _ => "#<function>"

/-- `fmt_seq` from src/types.rs: space-separated rendering. -/
def seqStr : List MalVal → String
  | [] => ""
  | [v] => v.str
  | v :: rest => v.str ++ " " ++ seqStr rest

end


/-! ## Reader (src/reader.rs) -/

/-- `ParseError` from src/reader.rs.  The source has a single `EOF` kind
("Unexpected EOF") covering both an unterminated sequence and an
unterminated string. -/
inductive ParseError : Type where
  | EOF : ParseError
  | UnxpectedToken (s : String) : ParseError
  | UnknownEscapeSequence (c : Char) : ParseError
  | UnexpectedNewline : ParseError
deriving DecidableEq

/-- `Token` from src/reader.rs. -/
inductive Token : Type where
  | LeftParen | RightParen
  | LeftBracket | RightBracket
  | LeftCurly | RightCurly
  | SingleQuote | Tick
  | Int (i : Int)
  | Str (s : String)
  | Lit (s : String)
deriving DecidableEq

/-- The single-quote character. -/
def chSQuote : Char := Char.ofNat 39

/-- The backtick character. -/
def chTick : Char := Char.ofNat 96

/-- The backslash character. -/
def chBackslash : Char := Char.ofNat 92

/-- The opening-curly character. -/
def chLCurly : Char := Char.ofNat 123

/-- The closing-curly character. -/
def chRCurly : Char := Char.ofNat 125

/-- Numeric value of a decimal digit character.  `read_number` only applies
it to characters in `'0'..='9'`, where Rust's `to_digit(10).unwrap()`
cannot panic. -/
def digitVal (c : Char) : Nat := c.toNat - 48

/-- The digit-consuming loop of `read_number`: accumulates
`v = v * 10 + digit` (wrapping `i64` arithmetic) and counts the digits
consumed, returning the accumulator, the count and the unconsumed rest. -/
def readNumLoop : List Char → Int → Nat → Int × Nat × List Char
  | [], v, found => (v, found, [])
  | c :: rest, v, found =>
    if c.isDigit then readNumLoop rest (wrap64 (v * 10 + (digitVal c : Int))) (found + 1)
    else (v, found, c :: rest)

/-- `read_number` from src/reader.rs: seeded from an optional first digit
(already consumed by the caller), consumes following digits; `none` when no
digit was found at all. -/
def read_number (first : Option Char) (l : List Char) : Option Int × List Char :=
  let seed : Int × Nat := match first with
    | some c => ((digitVal c : Int), 1)
    | none => (0, 0)
  let (v, found, rest) := readNumLoop l seed.1 seed.2
  (if found > 0 then some v else none, rest)

/-- `read_comment` from src/reader.rs: consumes up to and including the next
newline, returning the comment text (discarded by `tokenize`). -/
def read_comment : List Char → List Char × List Char
  | [] => ([], [])
  | c :: rest =>
    if c = '\n' then ([], rest)
    else
      let (s, r) := read_comment rest
      (c :: s, r)

/-- `read_string` from src/reader.rs: consumes a string body up to the
closing quote, handling the escapes `\"`, `\n`, `\\`; errors on a raw
newline, an unknown escape, or end of input. -/
def read_string : List Char → Except ParseError (List Char × List Char)
  | [] => .error .EOF
  | c :: rest =>
    if c = '\n' then .error .UnexpectedNewline
    else if c = chBackslash then
      match rest with
      | [] => .error .EOF
      | nc :: rest2 =>
        if nc = chQuote then
          (read_string rest2).map (fun (s, r) => (chQuote :: s, r))
        else if nc = 'n' then
          (read_string rest2).map (fun (s, r) => ('\n' :: s, r))
        else if nc = chBackslash then
          (read_string rest2).map (fun (s, r) => (chBackslash :: s, r))
        else .error (.UnknownEscapeSequence nc)
    else if c = chQuote then .ok ([], rest)
    else (read_string rest).map (fun (s, r) => (c :: s, r))

/-- `read_literal` from src/reader.rs: the first character (already
consumed by the caller) followed by characters up to a structural
character, `"`, `'`, `;`, backtick, `~`, or whitespace. -/
def read_literal : List Char → Char → List Char × List Char
  | l, first =>
    let rec go : List Char → List Char × List Char
      | [] => ([], [])
      | c :: rest =>
        if c = '(' || c = ')' || c = '[' || c = ']' || c = chLCurly || c = chRCurly
            || c = chQuote || c = chSQuote || c = ';' || c = chTick || c = '~' then
          ([], c :: rest)
        else if c.isWhitespace then ([], c :: rest)
        else
          let (s, r) := go rest
          (c :: s, r)
    let (s, r) := go l
    (first :: s, r)

/-- Reader-level failure: a recoverable `ParseError`, a process abort
(`unimplemented!` or a panicking `unwrap`), or fuel exhaustion (a
termination artifact of the embedding, proved unreachable for the fuel the
entry points supply). -/
inductive ReadErr : Type where
  | parse (e : ParseError) : ReadErr
  | panic (msg : String) : ReadErr
  | outOfFuel : ReadErr
deriving DecidableEq

/-- The fueled loop of `tokenize` from src/reader.rs.  One char of
lookahead drives the dispatch; whitespace and `,` are skipped; `-` is a
number when directly followed by digits and otherwise starts a literal;
`.panic` models the `unwrap()` on the digit branch (proved unreachable).
Every iteration consumes at least one character, so the fuel `tokenize`
supplies is proved sufficient. -/
def tokenizeF : Nat → List Char → Except ReadErr (List Token)
  | 0, _ => .error .outOfFuel
  | _, [] => .ok []
  | fuel + 1, c :: rest =>
    if c = '(' then (tokenizeF fuel rest).map (Token.LeftParen :: ·)
    else if c = ')' then (tokenizeF fuel rest).map (Token.RightParen :: ·)
    else if c = '[' then (tokenizeF fuel rest).map (Token.LeftBracket :: ·)
    else if c = ']' then (tokenizeF fuel rest).map (Token.RightBracket :: ·)
    else if c = chLCurly then (tokenizeF fuel rest).map (Token.LeftCurly :: ·)
    else if c = chRCurly then (tokenizeF fuel rest).map (Token.RightCurly :: ·)
    else if c = chSQuote then (tokenizeF fuel rest).map (Token.SingleQuote :: ·)
    else if c = chTick then (tokenizeF fuel rest).map (Token.Tick :: ·)
    else if c = chQuote then
      match read_string rest with
      | .error e => .error (.parse e)
      | .ok (s, rest') => (tokenizeF fuel rest').map (Token.Str (String.mk s) :: ·)
    else if c = ';' then
      tokenizeF fuel (read_comment rest).2
    else if c = '-' then
      match read_number none rest with
      | (some num, rest') => (tokenizeF fuel rest').map (Token.Int (wrap64 (-num)) :: ·)
      | (none, _) =>
        let (lit, rest') := read_literal rest '-'
        (tokenizeF fuel rest').map (Token.Lit (String.mk lit) :: ·)
    else if c.isDigit then
      match read_number (some c) rest with
      | (some num, rest') => (tokenizeF fuel rest').map (Token.Int num :: ·)
      | (none, _) => .error (.panic "unwrap on None")
    else if c.isWhitespace || c = ',' then tokenizeF fuel rest
    else
      let (lit, rest') := read_literal rest c
      (tokenizeF fuel rest').map (Token.Lit (String.mk lit) :: ·)

/-- `tokenize` from src/reader.rs. -/
def tokenize (l : List Char) : Except ReadErr (List Token) :=
  tokenizeF (l.length + 1) l

/-- Rust `Debug` rendering of a token, the payload of
`ParseError::UnxpectedToken` (string contents are rendered between plain
quotes, a harmless approximation of Rust's `Debug` escaping that no claim
touches). -/
def Token.debugStr : Token → String
  | .LeftParen => "LeftParen"
  | .RightParen => "RightParen"
  | .LeftBracket => "LeftBracket"
  | .RightBracket => "RightBracket"
  | .LeftCurly => "LeftCurly"
  | .RightCurly => "RightCurly"
  | .SingleQuote => "SingleQuote"
  | .Tick => "Tick"
  | .Int i => "Int(" ++ intToString i ++ ")"
  | .Str s => "Str(" ++ String.mk (chQuote :: s.data) ++ String.mk [chQuote] ++ ")"
  | .Lit s => "Lit(" ++ String.mk (chQuote :: s.data) ++ String.mk [chQuote] ++ ")"

/-- `read_atom` from src/reader.rs: consumes one token and classifies it;
`nil`/`true`/`false` are reserved words, other bare literals are symbols;
a delimiter token reaching here is `UnxpectedToken`. -/
def read_atom : List Token → Except ReadErr (Option MalVal × List Token)
  | [] => .ok (none, [])
  | tok :: rest =>
    match tok with
    | .Int i => .ok (some (.Atom (.Int i)), rest)
    | .Str s => .ok (some (.Atom (.Str s)), rest)
    | .Lit l =>
      if l = "nil" then .ok (some (.Atom .Nil), rest)
      else if l = "true" then .ok (some (.Atom .True), rest)
      else if l = "false" then .ok (some (.Atom .False), rest)
      else .ok (some (.Atom (.Sym l)), rest)
    | _ => .error (.parse (.UnxpectedToken tok.debugStr))

mutual

/-- `read_form` from src/reader.rs (fueled): peeks one token; quote markers
hit `unimplemented!` (modelled as `.panic`); an opening delimiter consumes
it and delegates to `read_seq`; anything else is an atom.  Returns the
parsed form (if any) together with the unconsumed tokens. -/
def read_form : Nat → List Token → Except ReadErr (Option MalVal × List Token)
  | 0, _ => .error .outOfFuel
  | _, [] => .ok (none, [])
  | fuel + 1, tok :: rest =>
    match tok with
    | .SingleQuote => .error (.panic "unimplemented: quote")
    | .Tick => .error (.panic "unimplemented: quasiquote")
    | .LeftParen =>
      (read_seq fuel rest .RightParen).map (fun (seq, r) => (some (.List seq), r))
    | .LeftBracket =>
      (read_seq fuel rest .RightBracket).map (fun (seq, r) => (some (.Vector seq), r))
    | .LeftCurly =>
      (read_seq fuel rest .RightCurly).map (fun (seq, r) => (some (.AssocArray seq), r))
    | _ => read_atom (tok :: rest)

/-- `read_seq` from src/reader.rs (fueled): collects forms until the
matching close token; end of tokens yields `ParseError::EOF`. -/
def read_seq : Nat → List Token → Token → Except ReadErr (List MalVal × List Token)
  | 0, _, _ => .error .outOfFuel
  | _, [], _ => .error (.parse .EOF)
  | fuel + 1, tok :: rest, until_ =>
    if tok = until_ then .ok ([], rest)
    else
      match read_form fuel (tok :: rest) with
      | .error e => .error e
      | .ok (f, r) =>
        match read_seq fuel r until_ with
        | .error e => .error e
        | .ok (seq, r') =>
          match f with
          | some v => .ok (v :: seq, r')
          | none => .ok (seq, r')

end

/-- The `while it.peek().is_some()` loop of `read_str`: repeatedly reads a
form from the remaining tokens, collecting the results.  The outer fuel
counts loop iterations; `read_form` consumes at least one token per
iteration, so the fuel supplied by `read_str` is proved sufficient. -/
def readLoop : Nat → List Token → Except ReadErr (List MalVal)
  | 0, _ => .error .outOfFuel
  | _, [] => .ok []
  | fuel + 1, tok :: rest =>
    match read_form (2 * (tok :: rest).length + 2) (tok :: rest) with
    | .error e => .error e
    | .ok (f, r) =>
      match readLoop fuel r with
      | .error e => .error e
      | .ok vs =>
        match f with
        | some v => .ok (v :: vs)
        | none => .ok vs

/-- `read_str` from src/reader.rs: tokenize, then parse the whole token
stream into an ordered sequence of forms. -/
def read_str (input : String) : Except ReadErr (List MalVal) :=
  match tokenize input.data with
  | .error e => .error e
  | .ok toks => readLoop (toks.length + 1) toks

instance {ε α : Type} [DecidableEq ε] [DecidableEq α] : DecidableEq (Except ε α) :=
  fun a b =>
    match a, b with
    | .ok x, .ok y => decidable_of_iff (x = y) (by simp)
    | .error x, .error y => decidable_of_iff (x = y) (by simp)
    | .ok _, .error _ => isFalse (by simp)
    | .error _, .ok _ => isFalse (by simp)


/-! ## Environment (src/types/env.rs) and native functions (src/eval/builtin.rs) -/

/-- Identifiers for the native functions installed by
`builtin::defaults()`; a `NativeFn` in the source is a function pointer,
dispatched here through `applyNative`. -/
inductive NativeFn : Type where
  | add | sub | mul | eq | gt | gte | lt | lte
  | list | is_list | is_empty | count
deriving DecidableEq

/-- `EnvironmentInner` from src/types/env.rs: optional parent (a frame
index), native registry, local bindings. -/
structure EnvironmentInner : Type where
  parent : Option Nat
  builtin : List (String × NativeFn)
  data : List (String × MalVal)
deriving DecidableEq

/-- The arena of environment frames.  An `Environment` (an
`Rc<RefCell<EnvironmentInner>>` in the source) is an index into `frames`;
two clones of one `Rc` are one index. -/
structure EvalState : Type where
  frames : List EnvironmentInner
deriving DecidableEq

/-- `EnvVal` from src/types/env.rs. -/
inductive EnvVal : Type where
  | NativeFn (f : NativeFn) : EnvVal
  | Val (v : MalVal) : EnvVal
deriving DecidableEq

/-- `builtin::defaults()` from src/eval/builtin.rs: the native registry
(key order is irrelevant: the keys are pairwise distinct, as in the source
`HashMap`). -/
def defaults : List (String × NativeFn) :=
  [("+", .add), ("-", .sub), ("*", .mul), ("=", .eq),
   (">", .gt), (">=", .gte), ("<", .lt), ("<=", .lte),
   ("list", .list), ("list?", .is_list), ("empty?", .is_empty),
   ("count", .count)]

/-- The root environment built by `main`:
`EnvironmentBuilder::new().with_builtins(builtin::defaults()).build()` —
frame 0, no parent, registry `defaults`, no bindings. -/
def initState : EvalState := ⟨[⟨none, defaults, []⟩]⟩

/-- `EnvironmentBuilder::new().with_parent(env).build()`: appends a fresh
frame whose parent is `parent` and returns the new state together with the
fresh frame's index. -/
def createChild (s : EvalState) (parent : Nat) : EvalState × Nat :=
  (⟨s.frames ++ [⟨some parent, [], []⟩]⟩, s.frames.length)

/-- Pointwise update of the frame at one index of the arena. -/
def updateFrame : List EnvironmentInner → Nat → (EnvironmentInner → EnvironmentInner) →
    List EnvironmentInner
  | [], _, _ => []
  | fr :: rest, 0, f => f fr :: rest
  | fr :: rest, i + 1, f => fr :: updateFrame rest i f

/-- `Environment::set` from src/types/env.rs: inserts/overwrites `n` in
frame `e`'s own bindings (prepending, with first-match lookup). -/
def Environment.set (s : EvalState) (e : Nat) (n : String) (v : MalVal) : EvalState :=
  ⟨updateFrame s.frames e (fun fr => { fr with data := (n, v) :: fr.data })⟩

/-- The fueled recursion of `Environment::find` from src/types/env.rs:
a frame matches when its bindings or its registry contain the name,
otherwise the search follows the parent link.  Parent indices are strictly
below child indices (frames are only ever created as children of existing
frames), so the fuel `Environment.find` supplies is sufficient. -/
def Environment.findAux (s : EvalState) : Nat → Nat → String → Option Nat
  | 0, _, _ => none
  | fuel + 1, e, n =>
    match s.frames[e]? with
    | none => none
    | some fr =>
      if containsKey fr.data n || containsKey fr.builtin n then some e
      else
        match fr.parent with
        | some p => Environment.findAux s fuel p n
        | none => none

/-- `Environment::find` from src/types/env.rs. -/
def Environment.find (s : EvalState) (e : Nat) (n : String) : Option Nat :=
  Environment.findAux s (e + 1) e n

/-- `Environment::get` from src/types/env.rs: locate the frame holding the
name, then read it — the registry is consulted before the frame's own
bindings.  The final `none` models the source's `unreachable!()` branch
(`find` only ever returns a frame containing the name). -/
def Environment.get (s : EvalState) (e : Nat) (n : String) : Option EnvVal :=
  match Environment.find s e n with
  | none => none
  | some i =>
    match s.frames[i]? with
    | none => none
    | some fr =>
      match lookupKey fr.builtin n with
      | some f => some (.NativeFn f)
      | none =>
        match lookupKey fr.data n with
        | some v => some (.Val v)
        | none => none

/-- `EvalError` from src/types.rs. -/
inductive EvalError : Type where
  | SymbolNotFound (s : String) : EvalError
  | NotANumber : EvalError
  | NotASymbol : EvalError
  | NotAList : EvalError
  | FunctionUndefined (s : String) : EvalError
  | BadFunctionDesignator (s : String) : EvalError
  | InvalidArgs : EvalError
deriving DecidableEq

/-- Test for the integer-atom shape (the `if let` used across builtin.rs). -/
def isIntVal : MalVal → Bool
  | .Atom (.Int _) => true
  | _ => false

/-- `add` from src/eval/builtin.rs: sum of integer arguments starting from
0; `NotANumber` on the first non-integer argument. -/
def builtin.add : List MalVal → Int → Except EvalError MalVal
  | [], acc => .ok (.Atom (.Int acc))
  | .Atom (.Int num) :: rest, acc => builtin.add rest (wrap64 (acc + num))
  | _ :: _, _ => .error .NotANumber

/-- The loop of `sub` from src/eval/builtin.rs: the first integer becomes
the accumulator, later ones are subtracted, and the integers are counted. -/
def builtin.subLoop : List MalVal → Bool → Int → Nat → Except EvalError (Int × Nat)
  | [], _, acc, count => .ok (acc, count)
  | .Atom (.Int num) :: rest, first, acc, count =>
    if first then builtin.subLoop rest false num (count + 1)
    else builtin.subLoop rest false (wrap64 (acc - num)) (count + 1)
  | _ :: _, _, _, _ => .error .NotANumber

/-- `sub` from src/eval/builtin.rs: a lone integer is negated; otherwise
the result is the running difference (which is 0 for an empty argument
list — there is no zero-argument error path). -/
def builtin.sub (args : List MalVal) : Except EvalError MalVal :=
  match builtin.subLoop args true 0 0 with
  | .error e => .error e
  | .ok (acc, count) =>
    if count = 1 then .ok (.Atom (.Int (wrap64 (-acc))))
    else .ok (.Atom (.Int acc))

/-- `mul` from src/eval/builtin.rs: product of integer arguments starting
from 1; `NotANumber` on the first non-integer argument. -/
def builtin.mul : List MalVal → Int → Except EvalError MalVal
  | [], acc => .ok (.Atom (.Int acc))
  | .Atom (.Int num) :: rest, acc => builtin.mul rest (wrap64 (acc * num))
  | _ :: _, _ => .error .NotANumber

/-- `eq` from src/eval/builtin.rs: structural equality of exactly two
arguments. -/
def builtin.eq : List MalVal → Except EvalError MalVal
  | [a, b] => .ok (.Atom (if a = b then .True else .False))
  | _ => .error .InvalidArgs

/-- `into_int` from src/eval/builtin.rs. -/
def builtin.into_int : MalVal → Except EvalError Int
  | .Atom (.Int i) => .ok i
  | _ => .error .NotANumber

/-- The comparison builtins generated by `def_int_op!` in
src/eval/builtin.rs: exactly two arguments, both integers. -/
def builtin.intCmp (op : Int → Int → Bool) : List MalVal → Except EvalError MalVal
  | [a, b] =>
    match builtin.into_int a with
    | .error e => .error e
    | .ok x =>
      match builtin.into_int b with
      | .error e => .error e
      | .ok y => .ok (.Atom (if op x y then .True else .False))
  | _ => .error .InvalidArgs

/-- `count` from src/eval/builtin.rs: length of a single list argument
(the `usize → i64` cast wraps). -/
def builtin.count : List MalVal → Except EvalError MalVal
  | [.List l] => .ok (.Atom (.Int (wrap64 l.length)))
  | [_] => .error .NotAList
  | _ => .error .InvalidArgs

/-- `empty?` from src/eval/builtin.rs. -/
def builtin.is_empty : List MalVal → Except EvalError MalVal
  | [.List l] => .ok (.Atom (if l.isEmpty then .True else .False))
  | [_] => .error .NotAList
  | _ => .error .InvalidArgs

/-- `list?` from src/eval/builtin.rs. -/
def builtin.is_list : List MalVal → Except EvalError MalVal
  | [.List _] => .ok (.Atom .True)
  | [_] => .ok (.Atom .False)
  | _ => .error .InvalidArgs

/-- Dispatch a `NativeFn` identifier to its function, the call
`f(list)` in src/eval.rs. -/
def applyNative : NativeFn → List MalVal → Except EvalError MalVal
  | .add, args => builtin.add args 0
  | .sub, args => builtin.sub args
  | .mul, args => builtin.mul args 1
  | .eq, args => builtin.eq args
  | .gt, args => builtin.intCmp (fun a b => b < a) args
  | .gte, args => builtin.intCmp (fun a b => b ≤ a) args
  | .lt, args => builtin.intCmp (fun a b => a < b) args
  | .lte, args => builtin.intCmp (fun a b => a ≤ b) args
  | .list, args => .ok (.List args)
  | .is_list, args => builtin.is_list args
  | .is_empty, args => builtin.is_empty args
  | .count, args => builtin.count args

/-! ## Evaluator (src/eval.rs) -/

/-- Outcome of an evaluator call: a value or a recoverable error (each
with the state as mutated so far — the environment is shared, so mutations
survive an error), a process abort, or fuel exhaustion (a termination
artifact: `eval`'s recursion is bounded only by the host call stack). -/
inductive EvalOut (α : Type) : Type where
  | ok (v : α) (s : EvalState) : EvalOut α
  | err (e : EvalError) (s : EvalState) : EvalOut α
  | panic (msg : String) : EvalOut α
  | outOfFuel : EvalOut α
deriving DecidableEq

/-- The bind-collection loop of `handle_fn`: every parameter must be a
symbol. -/
def collectBinds : List MalVal → Except EvalError (List String)
  | [] => .ok []
  | .Atom (.Sym n) :: rest => (collectBinds rest).map (n :: ·)
  | _ :: _ => .error .NotASymbol

/-- `handle_fn` from src/eval.rs: `(fn* (params...) body)` builds a
closure capturing `env` by shared reference (the same frame index). -/
def handle_fn (env : Nat) (list : List MalVal) (s : EvalState) : EvalOut MalVal :=
  if list.length ≠ 3 then .err .InvalidArgs s
  else
    match list with
    | [_, .List vars, body] =>
      match collectBinds vars with
      | .ok binds => .ok (.Fn env binds body) s
      | .error e => .err e s
    | _ => .err .NotAList s

/-- Define each parameter to its matching argument in the closure's child
frame, in order (`for (s, v) in f.binds.zip(list)` in src/eval.rs). -/
def setAll (s : EvalState) (e : Nat) : List (String × MalVal) → EvalState
  | [] => s
  | (n, v) :: rest => setAll (Environment.set s e n v) e rest

mutual

/-- `eval` from src/eval.rs (fueled): special-form dispatch on the literal
head symbol, otherwise generic application of the element-wise evaluated
list. -/
def eval : Nat → MalVal → Nat → EvalState → EvalOut MalVal
  | 0, _, _, _ => .outOfFuel
  | fuel + 1, ast, env, s =>
    match ast with
    | .List list =>
      match list with
      | [] => .ok (.List []) s
      | hd :: _ =>
        if hd = .Atom (.Sym "def!") then handle_def fuel env list s
        else if hd = .Atom (.Sym "let*") then handle_let fuel env list s
        else if hd = .Atom (.Sym "fn*") then handle_fn env list s
        else if hd = .Atom (.Sym "do") then handle_do fuel env list s
        else
          match eval_ast fuel (.List list) env s with
          | .ok evaluated s' =>
            match evaluated with
            | .List evaled =>
              match evaled with
              | [] => .panic "remove from empty Vec"
              | sym :: args =>
                match sym with
                | .Atom (.Sym symName) =>
                  match Environment.get s' env symName with
                  | some (.NativeFn f) =>
                    match applyNative f args with
                    | .ok v => .ok v s'
                    | .error e => .err e s'
                  | some (.Val _) => .err (.BadFunctionDesignator symName) s'
                  | none => .err (.FunctionUndefined symName) s'
                | .Fn fenv binds body =>
                  if binds.length ≠ args.length then .err .InvalidArgs s'
                  else
                    let c := createChild s' fenv
                    eval fuel body c.2 (setAll c.1 c.2 (binds.zip args))
                | other => .err (.BadFunctionDesignator other.str) s'
            | _ => .panic "list evaluated to non list"
          | .err e s' => .err e s'
          | .panic m => .panic m
          | .outOfFuel => .outOfFuel
    | _ => eval_ast fuel ast env s
termination_by structural fuel _ _ _ => fuel

/-- `eval_ast` from src/eval.rs (fueled): symbols resolve through the
environment (a native-registry hit evaluates to the bare symbol itself),
other atoms are self-evaluating, lists evaluate element-wise;
`Vector`/`AssocArray` hit `unimplemented!` and a bare closure value hits
`unreachable!`. -/
def eval_ast : Nat → MalVal → Nat → EvalState → EvalOut MalVal
  | 0, _, _, _ => .outOfFuel
  | _ + 1, .Atom (.Sym sym), env, s =>
    match Environment.get s env sym with
    | some (.NativeFn _) => .ok (.Atom (.Sym sym)) s
    | some (.Val v) => .ok v s
    | none => .err (.SymbolNotFound sym) s
  | _ + 1, .Atom a, _, s => .ok (.Atom a) s
  | fuel + 1, .List list, env, s =>
    match evalList fuel list env s with
    | .ok vs s' => .ok (.List vs) s'
    | .err e s' => .err e s'
    | .panic m => .panic m
    | .outOfFuel => .outOfFuel
  | _ + 1, .Vector _, _, _ => .panic "unimplemented: Vector evaluation"
  | _ + 1, .AssocArray _, _, _ => .panic "unimplemented: AssocArray evaluation"
  | _ + 1, .Fn _ _ _, _, _ => .panic "unreachable: Fn in eval_ast"
termination_by structural fuel _ _ _ => fuel

/-- The element-wise evaluation loop of `eval_ast`'s `List` arm, threading
the state left to right. -/
def evalList : Nat → List MalVal → Nat → EvalState → EvalOut (List MalVal)
  | 0, _, _, _ => .outOfFuel
  | _ + 1, [], _, s => .ok [] s
  | fuel + 1, v :: rest, env, s =>
    match eval fuel v env s with
    | .ok x s' =>
      match evalList fuel rest env s' with
      | .ok xs s'' => .ok (x :: xs) s''
      | .err e s'' => .err e s''
      | .panic m => .panic m
      | .outOfFuel => .outOfFuel
    | .err e s' => .err e s'
    | .panic m => .panic m
    | .outOfFuel => .outOfFuel
termination_by structural fuel _ _ _ => fuel

/-- `handle_def` from src/eval.rs: `(def! name value-expr)` — exactly three
elements, a symbol name, value evaluated in `env` and defined into `env`
itself. -/
def handle_def : Nat → Nat → List MalVal → EvalState → EvalOut MalVal
  | 0, _, _, _ => .outOfFuel
  | fuel + 1, env, list, s =>
    if list.length ≠ 3 then .err .InvalidArgs s
    else
      match list with
      | [_, .Atom (.Sym symName), e3] =>
        match eval fuel e3 env s with
        | .ok v s' => .ok v (Environment.set s' env symName v)
        | .err e s' => .err e s'
        | .panic m => .panic m
        | .outOfFuel => .outOfFuel
      | _ => .err .NotASymbol s
termination_by structural fuel _ _ _ => fuel

/-- `handle_let` from src/eval.rs: `(let* (bindings...) body)` — exactly
three elements, a list of an even number of binding elements, one child
frame created before the even-length check, pairs processed left to right
in that child frame, body evaluated in it. -/
def handle_let : Nat → Nat → List MalVal → EvalState → EvalOut MalVal
  | 0, _, _, _ => .outOfFuel
  | fuel + 1, env, list, s =>
    if list.length ≠ 3 then .err .InvalidArgs s
    else
      match list with
      | [_, .List vars, body] =>
        let c := createChild s env
        if vars.length % 2 ≠ 0 then .err .InvalidArgs c.1
        else
          match evalPairs fuel vars c.2 c.1 with
          | .ok _ s2 => eval fuel body c.2 s2
          | .err e s2 => .err e s2
          | .panic m => .panic m
          | .outOfFuel => .outOfFuel
      | _ => .err .NotAList s
termination_by structural fuel _ _ _ => fuel

/-- The `next_tuple` loop of `handle_let`: each pair is a symbol and a
value expression evaluated in the child frame, then defined into the child
frame, so later pairs see earlier ones.  A lone trailing element is never
reached (the even-length check precedes the loop); `next_tuple` would
simply yield nothing for it. -/
def evalPairs : Nat → List MalVal → Nat → EvalState → EvalOut Unit
  | 0, _, _, _ => .outOfFuel
  | _ + 1, [], _, s => .ok () s
  | _ + 1, [_], _, s => .ok () s
  | fuel + 1, sym :: toEval :: rest, child, s =>
    match sym with
    | .Atom (.Sym symName) =>
      match eval fuel toEval child s with
      | .ok v s' => evalPairs fuel rest child (Environment.set s' child symName v)
      | .err e s' => .err e s'
      | .panic m => .panic m
      | .outOfFuel => .outOfFuel
    | _ => .err .NotASymbol s
termination_by structural fuel _ _ _ => fuel

/-- `handle_do` from src/eval.rs: every element after the head is
evaluated left to right; the last value (or `Nil` when there are none) is
returned. -/
def handle_do : Nat → Nat → List MalVal → EvalState → EvalOut MalVal
  | 0, _, _, _ => .outOfFuel
  | fuel + 1, env, list, s => evalDo fuel (list.drop 1) env s (.Atom .Nil)
termination_by structural fuel _ _ _ => fuel

/-- The accumulation loop of `handle_do`. -/
def evalDo : Nat → List MalVal → Nat → EvalState → MalVal → EvalOut MalVal
  | 0, _, _, _, _ => .outOfFuel
  | _ + 1, [], _, s, ret => .ok ret s
  | fuel + 1, v :: rest, env, s, _ =>
    match eval fuel v env s with
    | .ok r s' => evalDo fuel rest env s' r
    | .err e s' => .err e s'
    | .panic m => .panic m
    | .outOfFuel => .outOfFuel
termination_by structural fuel _ _ _ _ => fuel


end

/-- Symbol-atom shorthand. -/
def symV (s : String) : MalVal := .Atom (.Sym s)

/-- Integer-atom shorthand. -/
def intV (i : Int) : MalVal := .Atom (.Int i)

/-- The value of an outcome, when there is one. -/
def EvalOut.value? {α : Type} : EvalOut α → Option α
  | .ok v _ => some v
  | _ => none

/-- The session loop of src/main.rs, as far as the claims need it: one
persistent environment, each form evaluated in order against it (`rep` per
line), the last result returned. -/
def evalSeq (fuel : Nat) : List MalVal → Nat → EvalState → EvalOut MalVal
  | [], _, s => .ok (.Atom .Nil) s
  | [f], env, s => eval fuel f env s
  | f :: rest, env, s =>
    match eval fuel f env s with
    | .ok _ s' => evalSeq fuel rest env s'
    | .err e s' => .err e s'
    | .panic m => .panic m
    | .outOfFuel => .outOfFuel

/-! ## Well-formedness of evaluation states

`Wf` captures the shape every state reachable from the startup environment
has: frame 0 is the root built by `main` (no parent, registry `defaults`),
every later frame was built by `EnvironmentBuilder::new().with_parent(..)`
from an already-existing frame (so its parent index is strictly smaller and
its registry is empty), and every stored binding is a well-formed evaluation
result.  `ValGoodB` says every closure inside a value captures an existing
frame; `ResGoodB` says every symbol in result position names a registry
entry (the only way `eval` ever produces a bare symbol). -/

mutual

/-- Every closure inside the value captures a frame index below `nf`. -/
def ValGoodB (nf : Nat) : MalVal → Bool
  | .Atom _ => true
  | .List l => ValGoodListB nf l
  | .Vector l => ValGoodListB nf l
  | .AssocArray l => ValGoodListB nf l
  | .Fn env _ body => decide (env < nf) && ValGoodB nf body

/-- `ValGoodB` on every element. -/
def ValGoodListB (nf : Nat) : List MalVal → Bool
  | [] => true
  | v :: rest => ValGoodB nf v && ValGoodListB nf rest

end

mutual

/-- Every symbol atom in evaluation-result position names an entry of the
native registry (closure bodies are not result positions). -/
def ResGoodB : MalVal → Bool
  | .Atom (.Sym n) => containsKey defaults n
  | .Atom _ => true
  | .List l => ResGoodListB l
  | .Vector l => ResGoodListB l
  | .AssocArray l => ResGoodListB l
  | .Fn _ _ _ => true

/-- `ResGoodB` on every element. -/
def ResGoodListB : List MalVal → Bool
  | [] => true
  | v :: rest => ResGoodB v && ResGoodListB rest

end

/-- Shape of one frame of a well-formed state (see the section comment). -/
def frameOkB (nf : Nat) (i : Nat) (fr : EnvironmentInner) : Bool :=
  (if i = 0 then decide (fr.parent = none) && decide (fr.builtin = defaults)
   else
     (match fr.parent with
      | some p => decide (p < i)
      | none => false) && decide (fr.builtin = ([] : List (String × NativeFn)))) &&
  fr.data.all (fun p => ValGoodB nf p.2 && ResGoodB p.2)

/-- Decidable well-formedness of a state. -/
def WfB (s : EvalState) : Bool :=
  decide (s.frames ≠ []) &&
  (List.range s.frames.length).all (fun i =>
    match s.frames[i]? with
    | some fr => frameOkB s.frames.length i fr
    | none => false)

/-- Well-formedness of a state, as a proposition. -/
def Wf (s : EvalState) : Prop := WfB s = true

instance (s : EvalState) : Decidable (Wf s) := by unfold Wf; infer_instance

/-- Number of frames of a state. -/
def nFrames (s : EvalState) : Nat := s.frames.length

/-- `eval` never with this outcome shape: the `FunctionUndefined` error. -/
def isFunctionUndefined {α : Type} : EvalOut α → Bool
  | .err (.FunctionUndefined _) _ => true
  | _ => false


/-! ## Analysis-side definitions (state relations, outcome invariants) -/

/-- The accumulator of `read_number`'s digit loop over a character list. -/
def valFold (a : Int) (ds : List Char) : Int :=
  ds.foldl (fun v c => wrap64 (v * 10 + (digitVal c : Int))) a

/-- The atomic-literal shapes of the round-trip claim: an (i64-range)
integer, an escape-free string (no quote, backslash or newline — nothing
the printer would need to escape), or `nil`/`true`/`false`. -/
def AtomicLitB : MalAtom → Bool
  | .Nil => true
  | .True => true
  | .False => true
  | .Int i => decide (-(2 ^ 63) ≤ i) && decide (i < 2 ^ 63)
  | .Str s => s.data.all (fun c =>
      decide (c ≠ chQuote) && decide (c ≠ chBackslash) && decide (c ≠ '\n'))
  | .Sym _ => false

/-- Parent indices point strictly downward (a consequence of frames only
ever being created as children of existing frames). -/
def parentLT (s : EvalState) : Prop :=
  ∀ (i : Nat) (fr : EnvironmentInner), s.frames[i]? = some fr →
    ∀ p : Nat, fr.parent = some p → p < i

/-- `s'` extends `s`: it has at least the frames of `s`, and every old
frame keeps its parent link and registry (only `data` may grow and new
frames may be appended — the only mutations the evaluator performs). -/
def StExt (s s' : EvalState) : Prop :=
  s.frames.length ≤ s'.frames.length ∧
  ∀ i : Nat, i < s.frames.length → ∀ fr : EnvironmentInner, s.frames[i]? = some fr →
    ∃ fr' : EnvironmentInner, s'.frames[i]? = some fr' ∧
      fr'.parent = fr.parent ∧ fr'.builtin = fr.builtin

/-- Every old frame other than `e` keeps its bindings untouched. -/
def PreservedExcept (s s' : EvalState) (e : Nat) : Prop :=
  ∀ i : Nat, i < s.frames.length → i ≠ e →
    ∀ fr : EnvironmentInner, s.frames[i]? = some fr →
      ∃ fr' : EnvironmentInner, s'.frames[i]? = some fr' ∧ fr'.data = fr.data

/-- The state conditions every evaluator call guarantees. -/
def StateOK (s s' : EvalState) (e : Nat) : Prop :=
  Wf s' ∧ StExt s s' ∧ PreservedExcept s s' e

/-- What every `eval`-family call returning a value guarantees: the state
stays well-formed, old frames keep shape, only the call's own environment
frame (among pre-existing frames) gains bindings, and the produced value
is a well-formed result. -/
def EvalOutOK (s : EvalState) (e : Nat) : EvalOut MalVal → Prop
  | .ok v s' => StateOK s s' e ∧ ValGoodB s'.frames.length v = true ∧ ResGoodB v = true
  | .err er s' => StateOK s s' e ∧ ∀ m, er ≠ .FunctionUndefined m
  | .panic _ => True
  | .outOfFuel => True

/-- `EvalOutOK` for the list-evaluation loop. -/
def EvalOutListOK (s : EvalState) (e : Nat) : EvalOut (List MalVal) → Prop
  | .ok vs s' => StateOK s s' e ∧ ValGoodListB s'.frames.length vs = true ∧
      ResGoodListB vs = true
  | .err er s' => StateOK s s' e ∧ ∀ m, er ≠ .FunctionUndefined m
  | .panic _ => True
  | .outOfFuel => True

/-- `EvalOutOK` for the binding-pair loop. -/
def EvalOutUnitOK (s : EvalState) (e : Nat) : EvalOut Unit → Prop
  | .ok _ s' => StateOK s s' e
  | .err er s' => StateOK s s' e ∧ ∀ m, er ≠ .FunctionUndefined m
  | .panic _ => True
  | .outOfFuel => True

/-- The final state carried by a non-aborting outcome. -/
def outState? {α : Type} : EvalOut α → Option EvalState
  | .ok _ s => some s
  | .err _ s => some s
  | .panic _ => none
  | .outOfFuel => none

/-! ## Arithmetic lemmas -/

theorem wrap64_of_range {i : Int} (h1 : -(2 ^ 63) ≤ i) (h2 : i < 2 ^ 63) :
    wrap64 i = i := by unfold wrap64; omega

theorem wrap64_sub_left (a b : Int) : wrap64 (wrap64 a - b) = wrap64 (a - b) := by
  unfold wrap64; omega

theorem wrap64_add_left (a b : Int) : wrap64 (wrap64 a + b) = wrap64 (a + b) := by
  unfold wrap64; omega

theorem wrap64_neg_wrap (a : Int) : wrap64 (-(wrap64 a)) = wrap64 (-a) := by
  unfold wrap64; omega

/-! ## Lemmas on the `-` native function -/

theorem isIntVal_iff (v : MalVal) : isIntVal v = true ↔ ∃ k, v = intV k := by
  cases v with
  | Atom a => cases a <;> simp [isIntVal, intV]
  | _ => simp [isIntVal, intV]

theorem subLoop_nonint {v : MalVal} (hv : isIntVal v = false)
    (l : List MalVal) (f : Bool) (a : Int) (c : Nat) :
    builtin.subLoop (v :: l) f a c = .error .NotANumber := by
  cases v with
  | Atom at' => cases at' <;> simp_all [builtin.subLoop, isIntVal]
  | _ => simp [builtin.subLoop]

theorem subLoop_ints (ys : List Int) : ∀ (a : Int) (c : Nat),
    builtin.subLoop (ys.map intV) false a c =
      .ok (ys.foldl (fun x y => wrap64 (x - y)) a, c + ys.length) := by
  induction ys with
  | nil => intro a c; simp [builtin.subLoop]
  | cons y ys ih =>
    intro a c
    have step : builtin.subLoop (List.map intV (y :: ys)) false a c =
        builtin.subLoop (List.map intV ys) false (wrap64 (a - y)) (c + 1) := by
      simp [builtin.subLoop, intV]
    rw [step, ih, List.foldl_cons]
    have harith : c + 1 + ys.length = c + (ys.length + 1) := by omega
    rw [harith]
    rfl

theorem foldl_wrap_sub (ys : List Int) : ∀ a : Int,
    ys.foldl (fun x y => wrap64 (x - y)) (wrap64 a) = wrap64 (a - ys.sum) := by
  induction ys with
  | nil => intro a; simp
  | cons y ys ih =>
    intro a
    have h : wrap64 (wrap64 a - y) = wrap64 (a - y) := wrap64_sub_left a y
    simp only [List.foldl_cons, h, ih (a - y), List.sum_cons]
    ring_nf

/-! ## Claim C4 -/

/-- C4 counterexample: the native function `-` applied to zero arguments
returns integer 0 — not the `InvalidArgs` error the claim requires. -/
theorem sub_no_args_returns_zero : builtin.sub [] = .ok (intV 0) := by decide

/-- C4 (amended): `-` applied to zero arguments returns integer 0 (there
is no zero-argument error path); applied to one integer it returns the
(wrapping) negation; applied to two or more integers it returns the first
minus the sum of the rest (wrapping); it fails with `NotANumber` at the
first non-integer argument. -/
theorem sub_spec :
    builtin.sub [] = .ok (intV 0) ∧
    (∀ x : Int, builtin.sub [intV x] = .ok (intV (wrap64 (-x)))) ∧
    (∀ (x y : Int) (ys : List Int),
      builtin.sub (intV x :: intV y :: ys.map intV) =
        .ok (intV (wrap64 (x - (y + ys.sum))))) ∧
    (∀ (pre : List MalVal) (v : MalVal) (post : List MalVal),
      (∀ u ∈ pre, isIntVal u = true) → isIntVal v = false →
      builtin.sub (pre ++ v :: post) = .error .NotANumber) := by
  refine ⟨by decide, ?_, ?_, ?_⟩
  · intro x
    have h1 : builtin.subLoop [intV x] true 0 0 = .ok (x, 1) := by
      simp [builtin.subLoop, intV]
    simp only [builtin.sub, intV] at h1 ⊢
    rw [h1]
    simp
  · intro x y ys
    have h1 : builtin.subLoop (intV x :: intV y :: ys.map intV) true 0 0 =
        builtin.subLoop (ys.map intV) false (wrap64 (x - y)) 2 := by
      simp [builtin.subLoop, intV]
    have h3 : builtin.subLoop (intV x :: intV y :: ys.map intV) true 0 0 =
        .ok (wrap64 (x - (y + ys.sum)), 2 + ys.length) := by
      rw [h1, subLoop_ints ys (wrap64 (x - y)) 2, foldl_wrap_sub ys (x - y)]
      have harith : x - y - ys.sum = x - (y + ys.sum) := by ring
      rw [harith]
    have hne : ¬(2 + ys.length = 1) := by omega
    simp only [builtin.sub, intV] at h3 ⊢
    rw [h3]
    simp [hne]
  · intro pre v post hpre hv
    have main : ∀ (pre : List MalVal), (∀ u ∈ pre, isIntVal u = true) →
        ∀ (f : Bool) (a : Int) (c : Nat),
        builtin.subLoop (pre ++ v :: post) f a c = .error .NotANumber := by
      intro pre
      induction pre with
      | nil => intro _ f a c; exact subLoop_nonint hv post f a c
      | cons u pre' ih =>
        intro hall f a c
        obtain ⟨k, rfl⟩ := (isIntVal_iff u).mp (hall u (List.mem_cons_self u pre'))
        have hrest : ∀ u ∈ pre', isIntVal u = true := fun u hu =>
          hall u (List.mem_cons_of_mem _ hu)
        cases f <;> simp [intV, builtin.subLoop, ih hrest]
    simp [builtin.sub, main pre hpre true 0 0]

/-- C4 witness: a concrete run through each hypothesis-bearing conjunct of
`sub_spec`. -/
theorem sub_spec_witness : builtin.sub [intV 3, symV "a"] = .error .NotANumber :=
  sub_spec.2.2.2 [intV 3] (symV "a") [] (by decide) (by decide)

/-! ## Claim C1 -/

/-- C1 counterexample: evaluating a `Vector` expression aborts the process
(`unimplemented!`) instead of returning a recoverable error; the eval-time
error taxonomy (`EvalError`) has no `UnsupportedExpression` kind at all. -/
theorem vector_eval_aborts_concrete :
    eval 2 (MalVal.Vector []) 0 initState = .panic "unimplemented: Vector evaluation" := by
  decide

/-- C1 (amended): for every `Vector` or `Map` (`AssocArray`) expression
passed to `eval` (with enough fuel to reach the dispatch), evaluation hits
`unimplemented!` and aborts the process; no recoverable error kind is
produced. -/
theorem vector_map_eval_panics (fuel : Nat) (l : List MalVal) (env : Nat) (s : EvalState) :
    eval (fuel + 2) (.Vector l) env s = .panic "unimplemented: Vector evaluation" ∧
    eval (fuel + 2) (.AssocArray l) env s = .panic "unimplemented: AssocArray evaluation" := by
  constructor <;> simp [eval, eval_ast]

/-! ## Claim C6 -/

/-- C6: a closure captures its defining environment by shared reference:
the session `(def! x 1) (def! f (fn* (a) (+ a x))) (def! x 2) (f 5)`
evaluates to 7 — the body of `f` sees the mutation of `x` made after the
closure was created. -/
theorem closure_capture_by_reference :
    (evalSeq 20 [
        .List [symV "def!", symV "x", intV 1],
        .List [symV "def!", symV "f",
          .List [symV "fn*", .List [symV "a"], .List [symV "+", symV "a", symV "x"]]],
        .List [symV "def!", symV "x", intV 2],
        .List [symV "f", intV 5]] 0 initState).value? = some (intV 7) := by
  decide

/-! ## Claim C7 -/

/-- C7: `let*` binds sequentially in one child frame — each value
expression is evaluated in the same child frame that already holds the
earlier pairs, so `(let* (a 7 b (+ a 1)) (+ a b))` evaluates to 15. -/
theorem let_sequential_binding :
    (eval 20 (.List [symV "let*",
        .List [symV "a", intV 7, symV "b", .List [symV "+", symV "a", intV 1]],
        .List [symV "+", symV "a", symV "b"]]) 0 initState).value? = some (intV 15) := by
  decide

/-! ## Claim C2: counterexample -/

/-- C2 counterexample: defining `+` in the root frame — the frame that
carries the native registry — and looking it up yields the native-function
marker, not the freshly defined binding: `Environment::get` consults the
found frame's registry before its bindings. -/
theorem root_binding_shadowed_by_registry :
    Environment.get (Environment.set initState 0 "+" (intV 5)) 0 "+" =
      some (.NativeFn .add) ∧
    Environment.get (Environment.set initState 0 "+" (intV 5)) 0 "+" ≠
      some (.Val (intV 5)) := by
  decide

/-! ## Claim C3: counterexample -/

/-- C3 counterexample: the input consisting of a single quote marker `'`
makes `read_form` hit `unimplemented!` and abort the process instead of
returning a sequence of values or a `ParseError`. -/
theorem quote_marker_aborts_reader :
    read_str (String.mk [chSQuote]) = .error (.panic "unimplemented: quote") := by
  decide

/-! ## Claim C5: counterexample -/

/-- C5 counterexample: an unterminated string literal fails with exactly
the same error kind (`ParseError::EOF`, "Unexpected EOF") as an
unterminated sequence; there is no separate `UnterminatedString` kind. -/
theorem unterminated_string_same_kind_as_unterminated_input :
    read_str (String.mk (chQuote :: 'a' :: 'b' :: [])) = .error (.parse .EOF) ∧
    read_str "(a b" = .error (.parse .EOF) := by
  decide

/-! ## Claim C5: amended theorem -/

theorem read_string_unterminated (cs : List Char)
    (h : ∀ c ∈ cs, c ≠ chQuote ∧ c ≠ chBackslash ∧ c ≠ '\n') :
    read_string cs = .error .EOF := by
  induction cs with
  | nil => rfl
  | cons c rest ih =>
    obtain ⟨h1, h2, h3⟩ := h c (List.mem_cons_self c rest)
    have hrest := fun c hc => h c (List.mem_cons_of_mem _ hc)
    unfold read_string
    rw [if_neg h3, if_neg h2, if_neg h1, ih hrest]
    rfl

theorem tokenizeF_quote (fuel : Nat) (rest : List Char) :
    tokenizeF (fuel + 1) (chQuote :: rest) =
      match read_string rest with
      | .error e => .error (.parse e)
      | .ok (s, rest') => (tokenizeF fuel rest').map (Token.Str (String.mk s) :: ·) := by
  conv_lhs => whnf

/-- C5 (amended): an unterminated string literal fails with
`ParseError::EOF` — the single "Unexpected EOF" kind, which is exactly the
kind an unterminated sequence produces and the kind the session loop
treats as recoverable by more input; the parser has no distinct
`UnterminatedString` kind. -/
theorem unterminated_string_is_eof (cs : List Char)
    (h : ∀ c ∈ cs, c ≠ chQuote ∧ c ≠ chBackslash ∧ c ≠ '\n') :
    read_str (String.mk (chQuote :: cs)) = .error (.parse .EOF) ∧
    read_str "(a b" = .error (.parse .EOF) := by
  refine ⟨?_, by decide⟩
  have htok : tokenize (chQuote :: cs) = .error (.parse .EOF) := by
    show tokenizeF ((chQuote :: cs).length + 1) (chQuote :: cs) = .error (.parse .EOF)
    rw [show (chQuote :: cs).length + 1 = cs.length + 1 + 1 from by simp]
    rw [tokenizeF_quote, read_string_unterminated cs h]
  simp only [read_str]
  rw [htok]

/-- C5 witness: `unterminated_string_is_eof` at the input `"ab`. -/
theorem unterminated_string_is_eof_witness :
    read_str (String.mk (chQuote :: ['a', 'b'])) = .error (.parse .EOF) :=
  (unterminated_string_is_eof ['a', 'b'] (by decide)).1

/-! ## Claim C9: decimal and string round-trip lemmas -/


theorem digitVal_digitChar {d : Nat} (hd : d < 10) : digitVal (digitChar d) = d := by
  interval_cases d <;> decide

theorem digitChar_isDigit {d : Nat} (hd : d < 10) : (digitChar d).isDigit = true := by
  interval_cases d <;> decide

theorem natToCharsF_shape : ∀ fuel n, n < fuel →
    natToCharsF fuel n ≠ [] ∧ ∀ c ∈ natToCharsF fuel n, ∃ e, e < 10 ∧ c = digitChar e := by
  intro fuel
  induction fuel with
  | zero => omega
  | succ fuel ih =>
    intro n hn
    by_cases h10 : n < 10
    · refine ⟨by simp [natToCharsF, h10], ?_⟩
      intro c hc
      simp [natToCharsF, h10] at hc
      exact ⟨n, h10, hc⟩
    · have hdiv : n / 10 < fuel := by omega
      obtain ⟨hne, hall⟩ := ih (n / 10) hdiv
      refine ⟨by simp [natToCharsF, h10], ?_⟩
      intro c hc
      simp only [natToCharsF, if_neg h10, List.mem_append, List.mem_singleton] at hc
      rcases hc with hc | hc
      · exact hall c hc
      · exact ⟨n % 10, by omega, hc⟩

theorem digits_foldl : ∀ fuel n, n < fuel → ∀ a : Int, 0 ≤ a →
    a * 10 ^ (natToCharsF fuel n).length + n < 2 ^ 63 →
    valFold a (natToCharsF fuel n) = a * 10 ^ (natToCharsF fuel n).length + n := by
  intro fuel
  induction fuel with
  | zero => omega
  | succ fuel ih =>
    intro n hn a ha hbound
    by_cases h10 : n < 10
    · simp only [natToCharsF, if_pos h10] at hbound ⊢
      simp only [valFold, List.foldl_cons, List.foldl_nil, List.length_singleton,
        pow_one] at hbound ⊢
      rw [digitVal_digitChar h10]
      exact wrap64_of_range (by omega) (by push_cast at hbound ⊢; omega)
    · have hdiv : n / 10 < fuel := by omega
      simp only [natToCharsF, if_neg h10] at hbound ⊢
      simp only [List.length_append, List.length_singleton] at hbound ⊢
      set k := (natToCharsF fuel (n / 10)).length with hk
      have hsplit : (10 : Int) ^ (k + 1) = 10 ^ k * 10 := by ring
      have hm : (0 : Int) ≤ a * 10 ^ k := mul_nonneg ha (by positivity)
      have hb2 : (a * 10 ^ k) * 10 + (n : Int) < 2 ^ 63 := by
        have hr : a * 10 ^ (k + 1) = (a * 10 ^ k) * 10 := by ring
        rw [hr] at hbound
        exact hbound
      have hineq : a * 10 ^ k + ((n / 10 : Nat) : Int) < 2 ^ 63 := by
        push_cast
        omega
      have hIH := ih (n / 10) hdiv a ha hineq
      simp only [valFold, List.foldl_append, List.foldl_cons, List.foldl_nil]
      rw [show List.foldl (fun v c => wrap64 (v * 10 + (digitVal c : Int))) a
          (natToCharsF fuel (n / 10)) = valFold a (natToCharsF fuel (n / 10)) from rfl]
      rw [hIH, digitVal_digitChar (by omega : n % 10 < 10)]
      have harg : (a * 10 ^ k + ((n / 10 : Nat) : Int)) * 10 + ((n % 10 : Nat) : Int) =
          (a * 10 ^ k) * 10 + (n : Int) := by
        push_cast
        have hdm : ((n : Int) / 10) * 10 + (n : Int) % 10 = n := by omega
        linear_combination hdm
      rw [harg]
      have h0 : (0 : Int) ≤ (a * 10 ^ k) * 10 + (n : Int) := by
        have hn0 : (0 : Int) ≤ (n : Int) := Int.natCast_nonneg n
        omega
      rw [wrap64_of_range (by omega) hb2]
      have hfin : (a * 10 ^ k) * 10 + (n : Int) = a * 10 ^ (k + 1) + n := by ring
      rw [hfin]

theorem readNumLoop_digits : ∀ ds : List Char,
    (∀ c ∈ ds, ∃ e, e < 10 ∧ c = digitChar e) → ∀ (v : Int) (found : Nat),
    readNumLoop ds v found = (valFold v ds, found + ds.length, []) := by
  intro ds
  induction ds with
  | nil => intro _ v found; simp [readNumLoop, valFold]
  | cons c rest ih =>
    intro hall v found
    obtain ⟨e, he, rfl⟩ := hall c (List.mem_cons_self c rest)
    have hrest := fun c hc => hall c (List.mem_cons_of_mem _ hc)
    simp only [readNumLoop, digitChar_isDigit he, if_pos]
    rw [ih hrest]
    simp [valFold, List.length_cons]
    omega

theorem tokenizeF_nil {fuel : Nat} (h : 0 < fuel) : tokenizeF fuel [] = .ok [] := by
  cases fuel with
  | zero => omega
  | succ fuel => rfl

theorem tokenizeF_digitChar {d : Nat} (hd : d < 10) (fuel : Nat) (rest : List Char) :
    tokenizeF (fuel + 1) (digitChar d :: rest) =
      match read_number (some (digitChar d)) rest with
      | (some num, rest') => (tokenizeF fuel rest').map (Token.Int num :: ·)
      | (none, _) => .error (.panic "unwrap on None") := by
  interval_cases d <;> (conv_lhs => whnf)

theorem tokenizeF_minus (fuel : Nat) (rest : List Char) :
    tokenizeF (fuel + 1) ('-' :: rest) =
      match read_number none rest with
      | (some num, rest') => (tokenizeF fuel rest').map (Token.Int (wrap64 (-num)) :: ·)
      | (none, _) =>
        (tokenizeF fuel (read_literal rest '-').2).map
          (Token.Lit (String.mk (read_literal rest '-').1) :: ·) := by
  conv_lhs => whnf

theorem valFold_cons_head {d : Nat} (hd : d < 10) (rest : List Char) :
    valFold 0 (digitChar d :: rest) = valFold (d : Int) rest := by
  simp only [valFold, List.foldl_cons]
  rw [digitVal_digitChar hd]
  rw [show (0 : Int) * 10 + (d : Int) = (d : Int) by ring]
  rw [wrap64_of_range (by omega) (by omega)]

theorem tokenize_digits (n : Nat) (hn : n < 2 ^ 63) :
    tokenize (natToChars n) = .ok [Token.Int (n : Int)] := by
  obtain ⟨hne, hall⟩ := natToCharsF_shape (n + 1) n (by omega)
  rw [show natToCharsF (n + 1) n = natToChars n from rfl] at hne hall
  obtain ⟨c0, dtail, hds⟩ : ∃ c0 dtail, natToChars n = c0 :: dtail := by
    cases hlist : natToChars n with
    | nil => exact absurd hlist hne
    | cons a b => exact ⟨a, b, rfl⟩
  obtain ⟨d0, hd0, hc0⟩ := hall c0 (by rw [hds]; exact List.mem_cons_self c0 dtail)
  have htail : ∀ c ∈ dtail, ∃ e, e < 10 ∧ c = digitChar e := fun c hc =>
    hall c (by rw [hds]; exact List.mem_cons_of_mem _ hc)
  have hvf : valFold 0 (natToChars n) = (n : Int) := by
    have := digits_foldl (n + 1) n (by omega) 0 le_rfl
      (by simpa using (by exact_mod_cast hn : ((n : Int) < 2 ^ 63)))
    simpa using this
  show tokenizeF ((natToChars n).length + 1) (natToChars n) = .ok [Token.Int (n : Int)]
  rw [hds] at hvf ⊢
  subst hc0
  rw [List.length_cons, tokenizeF_digitChar hd0]
  have hread : read_number (some (digitChar d0)) dtail =
      (some ((n : Int)), []) := by
    simp only [read_number, readNumLoop_digits dtail htail, digitVal_digitChar hd0]
    rw [valFold_cons_head hd0] at hvf
    simp [hvf]
  rw [hread]
  have h1 : tokenizeF (dtail.length + 1) ([] : List Char) = .ok [] :=
    tokenizeF_nil (by omega)
  simp [h1, Except.map]

theorem read_number_digits_none (ds : List Char) (hne : ds ≠ [])
    (hall : ∀ c ∈ ds, ∃ e, e < 10 ∧ c = digitChar e) :
    read_number none ds = (some (valFold 0 ds), []) := by
  simp only [read_number, readNumLoop_digits ds hall]
  cases ds with
  | nil => exact absurd rfl hne
  | cons c r => simp

theorem tokenize_neg_digits (n : Nat) (hn0 : 0 < n) (hn : n < 2 ^ 63) :
    tokenize ('-' :: natToChars n) = .ok [Token.Int (-(n : Int))] := by
  obtain ⟨hne, hall⟩ := natToCharsF_shape (n + 1) n (by omega)
  rw [show natToCharsF (n + 1) n = natToChars n from rfl] at hne hall
  have hvf : valFold 0 (natToChars n) = (n : Int) := by
    have := digits_foldl (n + 1) n (by omega) 0 le_rfl
      (by simpa using (by exact_mod_cast hn : ((n : Int) < 2 ^ 63)))
    simpa using this
  show tokenizeF (('-' :: natToChars n).length + 1) ('-' :: natToChars n) =
    .ok [Token.Int (-(n : Int))]
  rw [List.length_cons, tokenizeF_minus]
  rw [read_number_digits_none (natToChars n) hne hall, hvf]
  have h1 : tokenizeF ((natToChars n).length + 1) ([] : List Char) = .ok [] :=
    tokenizeF_nil (by omega)
  have hw : wrap64 (-(n : Int)) = -(n : Int) := by
    apply wrap64_of_range <;> omega
  simp [h1, Except.map, hw]

theorem read_string_closed (cs : List Char)
    (h : ∀ c ∈ cs, c ≠ chQuote ∧ c ≠ chBackslash ∧ c ≠ '\n') :
    read_string (cs ++ [chQuote]) = .ok (cs, []) := by
  induction cs with
  | nil =>
    show read_string [chQuote] = .ok ([], [])
    unfold read_string
    rw [if_neg (by decide : ¬(chQuote = '\n')), if_neg (by decide : ¬(chQuote = chBackslash)),
      if_pos rfl]
  | cons c rest ih =>
    obtain ⟨h1, h2, h3⟩ := h c (List.mem_cons_self c rest)
    have hrest := fun c hc => h c (List.mem_cons_of_mem _ hc)
    show read_string (c :: (rest ++ [chQuote])) = .ok (c :: rest, [])
    unfold read_string
    rw [if_neg h3, if_neg h2, if_neg h1, ih hrest]
    rfl

theorem string_mk_data (s : String) : String.mk s.data = s := rfl

theorem tokenize_string (s : String)
    (h : ∀ c ∈ s.data, c ≠ chQuote ∧ c ≠ chBackslash ∧ c ≠ '\n') :
    tokenize (chQuote :: (s.data ++ [chQuote])) = .ok [Token.Str s] := by
  show tokenizeF ((chQuote :: (s.data ++ [chQuote])).length + 1) _ = _
  rw [show (chQuote :: (s.data ++ [chQuote])).length + 1 =
    ((s.data ++ [chQuote]).length + 1) + 1 from by simp]
  rw [tokenizeF_quote, read_string_closed s.data h]
  have h1 : ∀ f : Nat, tokenizeF (f + 1) ([] : List Char) = .ok [] := fun f =>
    tokenizeF_nil (by omega)
  simp [h1, Except.map, string_mk_data]


/-- C9: stringifying an atomic literal Value (integer, escape-free string,
nil, true or false — the shapes the Reader produces for atomic literals)
with the printer and re-parsing the text yields exactly that Value. -/
theorem atomic_literal_roundtrip (a : MalAtom) (h : AtomicLitB a = true) :
    read_str ((MalVal.Atom a).str) = .ok [MalVal.Atom a] := by
  have hstr : (MalVal.Atom a).str = a.str := by simp [MalVal.str]
  rw [hstr]
  cases a with
  | Nil => decide
  | True => decide
  | False => decide
  | Sym s => simp [AtomicLitB] at h
  | Str s =>
    have hclean : ∀ c ∈ s.data, c ≠ chQuote ∧ c ≠ chBackslash ∧ c ≠ '\n' := by
      intro c hc
      simp only [AtomicLitB, List.all_eq_true] at h
      have := h c hc
      simp only [Bool.and_eq_true, decide_eq_true_eq] at this
      exact ⟨this.1.1, this.1.2, this.2⟩
    have hdata : (MalAtom.str (.Str s)).data = chQuote :: (s.data ++ [chQuote]) := rfl
    simp only [read_str, hdata]
    rw [tokenize_string s hclean]
    rfl
  | Int i =>
    simp only [AtomicLitB, Bool.and_eq_true, decide_eq_true_eq] at h
    obtain ⟨hlo, hhi⟩ := h
    by_cases hmin : i = -(2 ^ 63)
    · subst hmin
      set_option maxRecDepth 20000 in decide
    · rcases le_or_lt 0 i with hpos | hneg
      · have hstr2 : MalAtom.str (.Int i) = String.mk (natToChars i.toNat) := by
          simp [MalAtom.str, intToString, not_lt.mpr hpos]
        simp only [read_str, hstr2]
        rw [tokenize_digits i.toNat (by omega)]
        rw [show ((i.toNat : Nat) : Int) = i from Int.toNat_of_nonneg hpos]
        rfl
      · have hn0 : 0 < i.natAbs := by omega
        have hnlt : i.natAbs < 2 ^ 63 := by omega
        have hstr2 : MalAtom.str (.Int i) =
            String.mk (Char.ofNat 45 :: natToChars i.natAbs) := by
          simp [MalAtom.str, intToString, hneg]
        simp only [read_str, hstr2]
        rw [show (Char.ofNat 45) = '-' from rfl]
        rw [tokenize_neg_digits i.natAbs hn0 hnlt]
        rw [show -((i.natAbs : Nat) : Int) = i from by omega]
        rfl

/-- C9 witness: `atomic_literal_roundtrip` at the integer -42, whose
rendering is "-42". -/
theorem atomic_literal_roundtrip_witness :
    read_str ((MalVal.Atom (.Int (-42))).str) = .ok [MalVal.Atom (.Int (-42))] :=
  atomic_literal_roundtrip (.Int (-42)) (by decide)

/-! ## Claim C3: the reader returns on every quote-free input -/

theorem read_string_map_ok {x : Except ParseError (List Char × List Char)}
    {s r : List Char} {ch : Char}
    (h : x.map (fun (p : List Char × List Char) => (ch :: p.1, p.2)) = .ok (s, r)) :
    ∃ s2, x = .ok (s2, r) := by
  cases x with
  | error e => exact absurd h (by simp [Except.map])
  | ok p =>
    obtain ⟨s2, r2⟩ := p
    simp [Except.map] at h
    exact ⟨s2, by rw [h.2]⟩

theorem read_string_length : ∀ l s r, read_string l = .ok (s, r) → r.length ≤ l.length := by
  have key : ∀ n, ∀ l : List Char, l.length ≤ n → ∀ s r,
      read_string l = .ok (s, r) → r.length ≤ l.length := by
    intro n
    induction n with
    | zero =>
      intro l hl s r h
      have hnil : l = [] := List.length_eq_zero.mp (by omega)
      subst hnil
      exact absurd h (by simp [read_string])
    | succ n ih =>
      intro l hl s r h
      cases l with
      | nil => exact absurd h (by simp [read_string])
      | cons c rest =>
        simp only [List.length_cons] at hl
        unfold read_string at h
        split at h
        · exact absurd h (by simp)
        · split at h
          · cases rest with
            | nil => exact absurd h (by simp)
            | cons nc rest2 =>
              dsimp only [] at h
              simp only [List.length_cons] at hl
              split at h
              · obtain ⟨s2, hok⟩ := read_string_map_ok h
                have := ih rest2 (by omega) s2 r hok
                simp only [List.length_cons]
                omega
              · split at h
                · obtain ⟨s2, hok⟩ := read_string_map_ok h
                  have := ih rest2 (by omega) s2 r hok
                  simp only [List.length_cons]
                  omega
                · split at h
                  · obtain ⟨s2, hok⟩ := read_string_map_ok h
                    have := ih rest2 (by omega) s2 r hok
                    simp only [List.length_cons]
                    omega
                  · exact absurd h (by simp)
          · split at h
            · simp only [Except.ok.injEq, Prod.mk.injEq] at h
              rw [← h.2]
              simp
            · obtain ⟨s2, hok⟩ := read_string_map_ok h
              have := ih rest (by omega) s2 r hok
              simp only [List.length_cons]
              omega
  intro l
  exact key l.length l le_rfl

theorem read_comment_length : ∀ l : List Char, (read_comment l).2.length ≤ l.length := by
  intro l
  induction l with
  | nil => simp [read_comment]
  | cons c rest ih =>
    unfold read_comment
    by_cases h : c = '\n'
    · simp [h]
    · simp only [if_neg h]
      simp only [List.length_cons]
      omega

theorem readNumLoop_length : ∀ (l : List Char) (v : Int) (f : Nat),
    (readNumLoop l v f).2.2.length ≤ l.length := by
  intro l
  induction l with
  | nil => simp [readNumLoop]
  | cons c rest ih =>
    intro v f
    unfold readNumLoop
    by_cases h : c.isDigit
    · simp only [if_pos h]
      have := ih (wrap64 (v * 10 + (digitVal c : Int))) (f + 1)
      simp only [List.length_cons]
      omega
    · simp [if_neg h]

theorem readNumLoop_found : ∀ (l : List Char) (v : Int) (f : Nat),
    f ≤ (readNumLoop l v f).2.1 := by
  intro l
  induction l with
  | nil => simp [readNumLoop]
  | cons c rest ih =>
    intro v f
    unfold readNumLoop
    by_cases h : c.isDigit
    · simp only [if_pos h]
      have := ih (wrap64 (v * 10 + (digitVal c : Int))) (f + 1)
      omega
    · simp [if_neg h]

theorem read_number_length (first : Option Char) (l : List Char) :
    (read_number first l).2.length ≤ l.length := by
  unfold read_number
  cases first <;> simp <;> exact readNumLoop_length l _ _

theorem read_number_some_of_digit (c : Char) (l : List Char) :
    ∃ v rest, read_number (some c) l = (some v, rest) := by
  rcases hre : readNumLoop l ((digitVal c : Nat) : Int) 1 with ⟨v, f, rest⟩
  have hf := readNumLoop_found l ((digitVal c : Nat) : Int) 1
  rw [hre] at hf
  simp only [] at hf
  refine ⟨v, rest, ?_⟩
  unfold read_number
  dsimp only []
  rw [hre]
  simp [show f > 0 from by omega]

theorem read_literal_go_length : ∀ l : List Char, (read_literal.go l).2.length ≤ l.length := by
  intro l
  induction l with
  | nil => simp [read_literal.go]
  | cons c rest ih =>
    unfold read_literal.go
    split
    · simp
    · split
      · simp
      · simp only [List.length_cons]
        omega

theorem read_literal_length (l : List Char) (c : Char) :
    (read_literal l c).2.length ≤ l.length := by
  unfold read_literal
  exact read_literal_go_length l

theorem tokenizeF_cons_eq (fuel : Nat) (c : Char) (rest : List Char) :
    tokenizeF (fuel + 1) (c :: rest) =
      (if c = '(' then (tokenizeF fuel rest).map (Token.LeftParen :: ·)
      else if c = ')' then (tokenizeF fuel rest).map (Token.RightParen :: ·)
      else if c = '[' then (tokenizeF fuel rest).map (Token.LeftBracket :: ·)
      else if c = ']' then (tokenizeF fuel rest).map (Token.RightBracket :: ·)
      else if c = chLCurly then (tokenizeF fuel rest).map (Token.LeftCurly :: ·)
      else if c = chRCurly then (tokenizeF fuel rest).map (Token.RightCurly :: ·)
      else if c = chSQuote then (tokenizeF fuel rest).map (Token.SingleQuote :: ·)
      else if c = chTick then (tokenizeF fuel rest).map (Token.Tick :: ·)
      else if c = chQuote then
        match read_string rest with
        | .error e => .error (.parse e)
        | .ok (s, rest') => (tokenizeF fuel rest').map (Token.Str (String.mk s) :: ·)
      else if c = ';' then
        tokenizeF fuel (read_comment rest).2
      else if c = '-' then
        match read_number none rest with
        | (some num, rest') => (tokenizeF fuel rest').map (Token.Int (wrap64 (-num)) :: ·)
        | (none, _) =>
          let lit := read_literal rest '-'
          (tokenizeF fuel lit.2).map (Token.Lit (String.mk lit.1) :: ·)
      else if c.isDigit then
        match read_number (some c) rest with
        | (some num, rest') => (tokenizeF fuel rest').map (Token.Int num :: ·)
        | (none, _) => .error (.panic "unwrap on None")
      else if c.isWhitespace || c = ',' then tokenizeF fuel rest
      else
        let lit := read_literal rest c
        (tokenizeF fuel lit.2).map (Token.Lit (String.mk lit.1) :: ·)) := by
  rfl

set_option maxHeartbeats 1600000 in
theorem tokenizeF_total : ∀ fuel (l : List Char), l.length < fuel →
    (∃ toks, tokenizeF fuel l = .ok toks) ∨ (∃ e, tokenizeF fuel l = .error (.parse e)) := by
  intro fuel
  induction fuel with
  | zero => omega
  | succ fuel ih =>
    intro l hl
    cases l with
    | nil => exact .inl ⟨[], rfl⟩
    | cons c rest =>
      simp only [List.length_cons] at hl
      rw [tokenizeF_cons_eq]
      have hmap : ∀ (r : List Char) (f : List Token → List Token), r.length ≤ rest.length →
          (∃ toks, (tokenizeF fuel r).map f = .ok toks) ∨
          (∃ e, (tokenizeF fuel r).map f = .error (.parse e)) := by
        intro r f hr
        rcases ih r (by omega) with ⟨toks, htoks⟩ | ⟨e, he⟩
        · exact .inl ⟨f toks, by rw [htoks]; rfl⟩
        · exact .inr ⟨e, by rw [he]; rfl⟩
      by_cases h1 : c = '('
      · rw [if_pos h1]; exact hmap rest _ le_rfl
      rw [if_neg h1]
      by_cases h2 : c = ')'
      · rw [if_pos h2]; exact hmap rest _ le_rfl
      rw [if_neg h2]
      by_cases h3 : c = '['
      · rw [if_pos h3]; exact hmap rest _ le_rfl
      rw [if_neg h3]
      by_cases h4 : c = ']'
      · rw [if_pos h4]; exact hmap rest _ le_rfl
      rw [if_neg h4]
      by_cases h5 : c = chLCurly
      · rw [if_pos h5]; exact hmap rest _ le_rfl
      rw [if_neg h5]
      by_cases h6 : c = chRCurly
      · rw [if_pos h6]; exact hmap rest _ le_rfl
      rw [if_neg h6]
      by_cases h7 : c = chSQuote
      · rw [if_pos h7]; exact hmap rest _ le_rfl
      rw [if_neg h7]
      by_cases h8 : c = chTick
      · rw [if_pos h8]; exact hmap rest _ le_rfl
      rw [if_neg h8]
      by_cases h9 : c = chQuote
      · rw [if_pos h9]
        cases hrs : read_string rest with
        | error e => exact .inr ⟨e, rfl⟩
        | ok p =>
          obtain ⟨s, rest'⟩ := p
          exact hmap rest' _ (read_string_length rest s rest' hrs)
      rw [if_neg h9]
      by_cases h10 : c = ';'
      · rw [if_pos h10]
        exact ih (read_comment rest).2 (by have := read_comment_length rest; omega)
      rw [if_neg h10]
      by_cases h11 : c = '-'
      · rw [if_pos h11]
        rcases hrn : read_number none rest with ⟨fst, rest'⟩
        have hlen : rest'.length ≤ rest.length := by
          have := read_number_length none rest
          rw [hrn] at this
          exact this
        cases fst with
        | some num => exact hmap rest' _ hlen
        | none => exact hmap (read_literal rest '-').2 _ (read_literal_length rest '-')
      rw [if_neg h11]
      by_cases h12 : c.isDigit
      · rw [if_pos h12]
        obtain ⟨v, rest', hsome⟩ := read_number_some_of_digit c rest
        have hlen : rest'.length ≤ rest.length := by
          have := read_number_length (some c) rest
          rw [hsome] at this
          exact this
        rw [hsome]
        exact hmap rest' _ hlen
      rw [if_neg h12]
      by_cases h13 : c.isWhitespace || c = ','
      · rw [if_pos h13]
        exact ih rest (by omega)
      rw [if_neg h13]
      exact hmap (read_literal rest c).2 _ (read_literal_length rest c)

theorem read_form_cons_eq (fuel : Nat) (tok : Token) (rest : List Token) :
    read_form (fuel + 1) (tok :: rest) =
      (match tok with
      | .SingleQuote => .error (.panic "unimplemented: quote")
      | .Tick => .error (.panic "unimplemented: quasiquote")
      | .LeftParen =>
        (read_seq fuel rest .RightParen).map (fun (seq, r) => (some (.List seq), r))
      | .LeftBracket =>
        (read_seq fuel rest .RightBracket).map (fun (seq, r) => (some (.Vector seq), r))
      | .LeftCurly =>
        (read_seq fuel rest .RightCurly).map (fun (seq, r) => (some (.AssocArray seq), r))
      | _ => read_atom (tok :: rest)) := rfl

theorem read_seq_cons_eq (fuel : Nat) (tok : Token) (rest : List Token) (u : Token) :
    read_seq (fuel + 1) (tok :: rest) u =
      (if tok = u then .ok ([], rest)
      else
        match read_form fuel (tok :: rest) with
        | .error e => .error e
        | .ok (f, r) =>
          match read_seq fuel r u with
          | .error e => .error e
          | .ok (seq, r') =>
            match f with
            | some v => .ok (v :: seq, r')
            | none => .ok (seq, r')) := rfl

theorem read_atom_lit (l : String) (rest : List Token) :
    ∃ v, read_atom (Token.Lit l :: rest) = .ok (some v, rest) := by
  unfold read_atom
  dsimp only []
  split_ifs <;> exact ⟨_, rfl⟩

theorem parser_total : ∀ fuel : Nat,
    (∀ l : List Token, Token.SingleQuote ∉ l → Token.Tick ∉ l → 2 * l.length < fuel →
      (∃ v r, read_form fuel l = .ok (v, r) ∧ r.length ≤ l.length ∧
        (l ≠ [] → r.length < l.length) ∧ Token.SingleQuote ∉ r ∧ Token.Tick ∉ r) ∨
      (∃ e, read_form fuel l = .error (.parse e))) ∧
    (∀ (l : List Token) (u : Token), Token.SingleQuote ∉ l → Token.Tick ∉ l →
      2 * l.length + 1 < fuel →
      (∃ vs r, read_seq fuel l u = .ok (vs, r) ∧ r.length < l.length ∧
        Token.SingleQuote ∉ r ∧ Token.Tick ∉ r) ∨
      (∃ e, read_seq fuel l u = .error (.parse e))) := by
  intro fuel
  induction fuel with
  | zero =>
    constructor
    · intro l _ _ hc; omega
    · intro l u _ _ hc; omega
  | succ fuel ih =>
    obtain ⟨ihf, ihs⟩ := ih
    constructor
    · intro l hsq htk hfl
      cases l with
      | nil => exact .inl ⟨none, [], rfl, le_rfl, by simp, by simp, by simp⟩
      | cons tok rest =>
        have hsq' : Token.SingleQuote ∉ rest := fun hm => hsq (List.mem_cons_of_mem _ hm)
        have htk' : Token.Tick ∉ rest := fun hm => htk (List.mem_cons_of_mem _ hm)
        simp only [List.length_cons] at hfl
        rw [read_form_cons_eq]
        have hseqcase : ∀ (u : Token) (mk : List MalVal → MalVal),
            (∃ v r, (read_seq fuel rest u).map
                (fun (p : List MalVal × List Token) => (some (mk p.1), p.2)) = .ok (v, r) ∧
              r.length ≤ (tok :: rest).length ∧
              (tok :: rest ≠ [] → r.length < (tok :: rest).length) ∧
              Token.SingleQuote ∉ r ∧ Token.Tick ∉ r) ∨
            (∃ e, (read_seq fuel rest u).map
                (fun (p : List MalVal × List Token) => (some (mk p.1), p.2)) =
              .error (.parse e)) := by
          intro u mk
          rcases ihs rest u hsq' htk' (by omega) with
            ⟨vs, r, heq, hlen, hsq2, htk2⟩ | ⟨e, heq⟩
          · refine .inl ⟨some (mk vs), r, by rw [heq]; rfl, ?_, ?_, hsq2, htk2⟩
            · simp only [List.length_cons]; omega
            · intro _; simp only [List.length_cons]; omega
          · exact .inr ⟨e, by rw [heq]; rfl⟩
        cases tok with
        | SingleQuote => exact absurd (List.mem_cons_self _ _) hsq
        | Tick => exact absurd (List.mem_cons_self _ _) htk
        | LeftParen => exact hseqcase .RightParen MalVal.List
        | LeftBracket => exact hseqcase .RightBracket MalVal.Vector
        | LeftCurly => exact hseqcase .RightCurly MalVal.AssocArray
        | RightParen => exact .inr ⟨_, rfl⟩
        | RightBracket => exact .inr ⟨_, rfl⟩
        | RightCurly => exact .inr ⟨_, rfl⟩
        | Int i =>
          exact .inl ⟨some (.Atom (.Int i)), rest, rfl, by simp, fun _ => by simp,
            hsq', htk'⟩
        | Str s =>
          exact .inl ⟨some (.Atom (.Str s)), rest, rfl, by simp, fun _ => by simp,
            hsq', htk'⟩
        | Lit s =>
          obtain ⟨v, hv⟩ := read_atom_lit s rest
          exact .inl ⟨some v, rest, hv, by simp, fun _ => by simp, hsq', htk'⟩
    · intro l u hsq htk hfl
      cases l with
      | nil => exact .inr ⟨.EOF, rfl⟩
      | cons tok rest =>
        have hsq' : Token.SingleQuote ∉ rest := fun hm => hsq (List.mem_cons_of_mem _ hm)
        have htk' : Token.Tick ∉ rest := fun hm => htk (List.mem_cons_of_mem _ hm)
        simp only [List.length_cons] at hfl
        rw [read_seq_cons_eq]
        by_cases htu : tok = u
        · rw [if_pos htu]
          exact .inl ⟨[], rest, rfl, by simp, hsq', htk'⟩
        · rw [if_neg htu]
          rcases ihf (tok :: rest) hsq htk (by simp; omega) with
            ⟨v, r, heq, hle, hlt, hsq2, htk2⟩ | ⟨e, heq⟩
          · rw [heq]
            dsimp only []
            have hr : r.length < (tok :: rest).length := hlt (by simp)
            simp only [List.length_cons] at hr hle
            rcases ihs r u hsq2 htk2 (by omega) with
              ⟨vs, r', heq2, hlen2, hsq3, htk3⟩ | ⟨e, heq2⟩
            · rw [heq2]
              dsimp only []
              cases v with
              | some x =>
                exact .inl ⟨x :: vs, r', rfl, by simp only [List.length_cons]; omega,
                  hsq3, htk3⟩
              | none =>
                exact .inl ⟨vs, r', rfl, by simp only [List.length_cons]; omega,
                  hsq3, htk3⟩
            · rw [heq2]
              exact .inr ⟨e, rfl⟩
          · rw [heq]
            exact .inr ⟨e, rfl⟩

theorem readLoop_cons_eq (fuel : Nat) (tok : Token) (rest : List Token) :
    readLoop (fuel + 1) (tok :: rest) =
      (match read_form (2 * (tok :: rest).length + 2) (tok :: rest) with
      | .error e => .error e
      | .ok (f, r) =>
        match readLoop fuel r with
        | .error e => .error e
        | .ok vs =>
          match f with
          | some v => .ok (v :: vs)
          | none => .ok vs) := rfl

theorem readLoop_total : ∀ fuel (toks : List Token), toks.length < fuel →
    Token.SingleQuote ∉ toks → Token.Tick ∉ toks →
    (∃ vs, readLoop fuel toks = .ok vs) ∨ (∃ e, readLoop fuel toks = .error (.parse e)) := by
  intro fuel
  induction fuel with
  | zero => omega
  | succ fuel ih =>
    intro toks hlt hsq htk
    cases toks with
    | nil => exact .inl ⟨[], rfl⟩
    | cons tok rest =>
      rw [readLoop_cons_eq]
      rcases (parser_total (2 * (tok :: rest).length + 2)).1 (tok :: rest) hsq htk
          (by omega) with ⟨v, r, heq, hle, hlt2, hsq2, htk2⟩ | ⟨e, heq⟩
      · rw [heq]
        dsimp only []
        have hr : r.length < (tok :: rest).length := hlt2 (by simp)
        simp only [List.length_cons] at hr hlt
        rcases ih r (by omega) hsq2 htk2 with ⟨vs, heq2⟩ | ⟨e, heq2⟩
        · rw [heq2]
          cases v with
          | some x => exact .inl ⟨x :: vs, rfl⟩
          | none => exact .inl ⟨vs, rfl⟩
        · rw [heq2]
          exact .inr ⟨e, rfl⟩
      · rw [heq]
        exact .inr ⟨e, rfl⟩

/-- C3 (amended): for every input text whose token stream contains no
quote-marker token (`'` or backtick), the Reader's top-level `read_str`
returns — with enough fuel for its (host-stack-bounded) recursion — either
an ordered sequence of Values or a `ParseError`; it never aborts.  (A
quote-marker token aborts via `unimplemented!`; over-long integer literals
wrap and do not crash.) -/
theorem reader_returns_without_quotes (input : String)
    (h : ∀ toks, tokenize input.data = .ok toks →
      Token.SingleQuote ∉ toks ∧ Token.Tick ∉ toks) :
    (∃ vs, read_str input = .ok vs) ∨ (∃ e, read_str input = .error (.parse e)) := by
  rcases tokenizeF_total (input.data.length + 1) input.data (by omega) with
    ⟨toks, htoks⟩ | ⟨e, he⟩
  · have hnq := h toks htoks
    rcases readLoop_total (toks.length + 1) toks (by omega) hnq.1 hnq.2 with
      ⟨vs, hv⟩ | ⟨e, hev⟩
    · refine .inl ⟨vs, ?_⟩
      simp only [read_str]
      rw [show tokenize input.data = .ok toks from htoks]
      exact hv
    · refine .inr ⟨e, ?_⟩
      simp only [read_str]
      rw [show tokenize input.data = .ok toks from htoks]
      exact hev
  · refine .inr ⟨e, ?_⟩
    simp only [read_str]
    rw [show tokenize input.data = .error (.parse e) from he]

/-- C3 witness: `reader_returns_without_quotes` at the quote-free input
`(+ 1 2)`. -/
theorem reader_returns_without_quotes_witness :
    (∃ vs, read_str "(+ 1 2)" = .ok vs) ∨
    (∃ e, read_str "(+ 1 2)" = .error (.parse e)) :=
  reader_returns_without_quotes "(+ 1 2)" (fun toks htoks => by
    have h2 : tokenize "(+ 1 2)".data =
        .ok [Token.LeftParen, Token.Lit "+", Token.Int 1, Token.Int 2,
          Token.RightParen] := by decide
    rw [h2] at htoks
    have := Except.ok.inj htoks
    subst this
    decide)

/-! ## Environment lemmas -/

theorem lookupKey_some_of_containsKey {α : Type} {l : List (String × α)} {k : String}
    (h : containsKey l k = true) : ∃ v, lookupKey l k = some v := by
  induction l with
  | nil => simp [containsKey] at h
  | cons p rest ih =>
    obtain ⟨k', v'⟩ := p
    by_cases hk : k' = k
    · exact ⟨v', by simp [lookupKey, hk]⟩
    · simp only [containsKey, Bool.or_eq_true, decide_eq_true_eq] at h
      rcases h with h | h
      · exact absurd h hk
      · obtain ⟨v, hv⟩ := ih h
        exact ⟨v, by simp [lookupKey, hk, hv]⟩

theorem containsKey_of_lookupKey_some {α : Type} {l : List (String × α)} {k : String}
    {v : α} (h : lookupKey l k = some v) : containsKey l k = true := by
  induction l with
  | nil => simp [lookupKey] at h
  | cons p rest ih =>
    obtain ⟨k', v'⟩ := p
    by_cases hk : k' = k
    · simp [containsKey, hk]
    · simp only [lookupKey, if_neg hk] at h
      simp [containsKey, hk, ih h]

theorem lookupKey_mem {α : Type} {l : List (String × α)} {k : String} {v : α}
    (h : lookupKey l k = some v) : ∃ p ∈ l, p.2 = v := by
  induction l with
  | nil => simp [lookupKey] at h
  | cons p rest ih =>
    obtain ⟨k', v'⟩ := p
    by_cases hk : k' = k
    · simp only [lookupKey, if_pos hk, Option.some.injEq] at h
      exact ⟨(k', v'), List.mem_cons_self _ _, h⟩
    · simp only [lookupKey, if_neg hk] at h
      obtain ⟨p, hp, hv⟩ := ih h
      exact ⟨p, List.mem_cons_of_mem _ hp, hv⟩

theorem updateFrame_length (l : List EnvironmentInner) (i : Nat)
    (f : EnvironmentInner → EnvironmentInner) : (updateFrame l i f).length = l.length := by
  induction l generalizing i with
  | nil => rfl
  | cons fr rest ih =>
    cases i with
    | zero => rfl
    | succ i => simp [updateFrame, ih]

theorem updateFrame_getElem_eq (l : List EnvironmentInner) (i : Nat)
    (f : EnvironmentInner → EnvironmentInner) :
    (updateFrame l i f)[i]? = (l[i]?).map f := by
  induction l generalizing i with
  | nil => simp [updateFrame]
  | cons fr rest ih =>
    cases i with
    | zero => simp [updateFrame]
    | succ i => simpa [updateFrame] using ih i

theorem updateFrame_getElem_ne (l : List EnvironmentInner) (i j : Nat)
    (f : EnvironmentInner → EnvironmentInner) (h : j ≠ i) :
    (updateFrame l i f)[j]? = l[j]? := by
  induction l generalizing i j with
  | nil => simp [updateFrame]
  | cons fr rest ih =>
    cases i with
    | zero =>
      cases j with
      | zero => exact absurd rfl h
      | succ j => simp [updateFrame]
    | succ i =>
      cases j with
      | zero => simp [updateFrame]
      | succ j => simpa [updateFrame] using ih i j (fun hji => h (by omega))

theorem set_length (s : EvalState) (e : Nat) (n : String) (v : MalVal) :
    (Environment.set s e n v).frames.length = s.frames.length :=
  updateFrame_length _ _ _

theorem set_getElem_eq (s : EvalState) (e : Nat) (n : String) (v : MalVal) :
    (Environment.set s e n v).frames[e]? =
      (s.frames[e]?).map (fun fr => { fr with data := (n, v) :: fr.data }) :=
  updateFrame_getElem_eq _ _ _

theorem set_getElem_ne (s : EvalState) (e : Nat) (n : String) (v : MalVal)
    (i : Nat) (h : i ≠ e) :
    (Environment.set s e n v).frames[i]? = s.frames[i]? :=
  updateFrame_getElem_ne _ _ _ _ h

theorem createChild_length (s : EvalState) (p : Nat) :
    (createChild s p).1.frames.length = s.frames.length + 1 := by
  simp [createChild]

theorem createChild_getElem_old (s : EvalState) (p : Nat) (i : Nat)
    (hi : i < s.frames.length) : (createChild s p).1.frames[i]? = s.frames[i]? := by
  simp [createChild, List.getElem?_append_left hi]

theorem createChild_getElem_new (s : EvalState) (p : Nat) :
    (createChild s p).1.frames[s.frames.length]? =
      some ⟨some p, [], []⟩ := by
  simp [createChild]

theorem Wf_iff (s : EvalState) : Wf s ↔ s.frames ≠ [] ∧
    ∀ i, i < s.frames.length → ∃ fr, s.frames[i]? = some fr ∧
      frameOkB s.frames.length i fr = true := by
  unfold Wf WfB
  rw [Bool.and_eq_true, decide_eq_true_eq, List.all_eq_true]
  constructor
  · rintro ⟨hne, hall⟩
    refine ⟨hne, fun i hi => ?_⟩
    have := hall i (List.mem_range.mpr hi)
    cases hfr : s.frames[i]? with
    | none => rw [hfr] at this; exact absurd this (by simp)
    | some fr => rw [hfr] at this; exact ⟨fr, rfl, this⟩
  · rintro ⟨hne, hall⟩
    refine ⟨hne, fun i hi => ?_⟩
    obtain ⟨fr, hfr, hok⟩ := hall i (List.mem_range.mp hi)
    rw [hfr]
    exact hok

theorem wf_frame {s : EvalState} (h : Wf s) {i : Nat} (hi : i < s.frames.length) :
    ∃ fr, s.frames[i]? = some fr ∧ frameOkB s.frames.length i fr = true :=
  ((Wf_iff s).mp h).2 i hi

theorem wf_nonempty {s : EvalState} (h : Wf s) : 0 < s.frames.length := by
  have := ((Wf_iff s).mp h).1
  cases hf : s.frames with
  | nil => exact absurd hf this
  | cons a b => simp [hf]

theorem frameOk_root {nf : Nat} {fr : EnvironmentInner}
    (h : frameOkB nf 0 fr = true) : fr.parent = none ∧ fr.builtin = defaults := by
  unfold frameOkB at h
  rw [if_pos rfl] at h
  simp only [Bool.and_eq_true, decide_eq_true_eq] at h
  exact h.1

theorem frameOk_child {nf i : Nat} {fr : EnvironmentInner} (hi : i ≠ 0)
    (h : frameOkB nf i fr = true) :
    (∃ p, fr.parent = some p ∧ p < i) ∧ fr.builtin = [] := by
  unfold frameOkB at h
  rw [if_neg hi] at h
  simp only [Bool.and_eq_true, decide_eq_true_eq] at h
  obtain ⟨⟨hp, hb⟩, _⟩ := h
  refine ⟨?_, hb⟩
  cases hpar : fr.parent with
  | none => rw [hpar] at hp; exact absurd hp (by simp)
  | some p =>
    rw [hpar] at hp
    simp only [decide_eq_true_eq] at hp
    exact ⟨p, rfl, hp⟩

theorem frameOk_data {nf i : Nat} {fr : EnvironmentInner}
    (h : frameOkB nf i fr = true) :
    ∀ p ∈ fr.data, ValGoodB nf p.2 = true ∧ ResGoodB p.2 = true := by
  unfold frameOkB at h
  rw [Bool.and_eq_true, List.all_eq_true] at h
  intro p hp
  have := h.2 p hp
  rwa [Bool.and_eq_true] at this

theorem frameOk_intro {nf i : Nat} {fr : EnvironmentInner}
    (hshape : if i = 0 then fr.parent = none ∧ fr.builtin = defaults
      else (∃ p, fr.parent = some p ∧ p < i) ∧ fr.builtin = [])
    (hdata : ∀ p ∈ fr.data, ValGoodB nf p.2 = true ∧ ResGoodB p.2 = true) :
    frameOkB nf i fr = true := by
  unfold frameOkB
  rw [Bool.and_eq_true, List.all_eq_true]
  constructor
  · by_cases hi : i = 0
    · rw [if_pos hi] at hshape ⊢
      simp [hshape.1, hshape.2]
    · rw [if_neg hi] at hshape ⊢
      obtain ⟨⟨p, hp, hplt⟩, hb⟩ := hshape
      rw [hp, hb]
      simp [hplt]
  · intro p hp
    rw [Bool.and_eq_true]
    exact hdata p hp

mutual

theorem ValGoodB_mono : ∀ (v : MalVal) (n1 n2 : Nat), n1 ≤ n2 →
    ValGoodB n1 v = true → ValGoodB n2 v = true
  | .Atom _, _, _, _, _ => by simp [ValGoodB]
  | .List l, n1, n2, h, hg => by
    simp only [ValGoodB] at hg ⊢
    exact ValGoodListB_mono l n1 n2 h hg
  | .Vector l, n1, n2, h, hg => by
    simp only [ValGoodB] at hg ⊢
    exact ValGoodListB_mono l n1 n2 h hg
  | .AssocArray l, n1, n2, h, hg => by
    simp only [ValGoodB] at hg ⊢
    exact ValGoodListB_mono l n1 n2 h hg
  | .Fn env binds body, n1, n2, h, hg => by
    simp only [ValGoodB, Bool.and_eq_true, decide_eq_true_eq] at hg ⊢
    exact ⟨by omega, ValGoodB_mono body n1 n2 h hg.2⟩

theorem ValGoodListB_mono : ∀ (l : List MalVal) (n1 n2 : Nat), n1 ≤ n2 →
    ValGoodListB n1 l = true → ValGoodListB n2 l = true
  | [], _, _, _, _ => by simp [ValGoodListB]
  | v :: rest, n1, n2, h, hg => by
    simp only [ValGoodListB, Bool.and_eq_true] at hg ⊢
    exact ⟨ValGoodB_mono v n1 n2 h hg.1, ValGoodListB_mono rest n1 n2 h hg.2⟩

end

theorem frames_ne_nil_of_length_pos {s : EvalState} (h : 0 < s.frames.length) :
    s.frames ≠ [] := by
  cases hf : s.frames with
  | nil => rw [hf] at h; simp at h
  | cons a b => simp

theorem wf_set {s : EvalState} (hwf : Wf s) {e : Nat} (he : e < s.frames.length)
    {n : String} {v : MalVal} (hv : ValGoodB s.frames.length v = true)
    (hr : ResGoodB v = true) : Wf (Environment.set s e n v) := by
  rw [Wf_iff]
  constructor
  · exact frames_ne_nil_of_length_pos (by rw [set_length]; exact wf_nonempty hwf)
  · intro i hi
    rw [set_length] at hi
    obtain ⟨fr, hfr, hok⟩ := wf_frame hwf hi
    by_cases hie : i = e
    · subst hie
      refine ⟨{ fr with data := (n, v) :: fr.data }, ?_, ?_⟩
      · rw [set_getElem_eq, hfr]; rfl
      · rw [set_length]
        unfold frameOkB at hok ⊢
        rw [Bool.and_eq_true] at hok ⊢
        refine ⟨hok.1, ?_⟩
        rw [List.all_eq_true]
        intro q hq
        rcases List.mem_cons.mp hq with hq1 | hq2
        · rw [hq1]
          simp only [Bool.and_eq_true]
          exact ⟨hv, hr⟩
        · exact (List.all_eq_true.mp hok.2) q hq2
    · refine ⟨fr, ?_, ?_⟩
      · rw [set_getElem_ne _ _ _ _ _ hie]; exact hfr
      · rw [set_length]; exact hok

theorem wf_createChild {s : EvalState} (hwf : Wf s) {p : Nat}
    (hp : p < s.frames.length) : Wf (createChild s p).1 := by
  rw [Wf_iff]
  constructor
  · exact frames_ne_nil_of_length_pos (by rw [createChild_length]; omega)
  · intro i hi
    rw [createChild_length] at hi ⊢
    by_cases hilt : i < s.frames.length
    · obtain ⟨fr, hfr, hok⟩ := wf_frame hwf hilt
      refine ⟨fr, by rw [createChild_getElem_old _ _ _ hilt]; exact hfr, ?_⟩
      unfold frameOkB at hok ⊢
      rw [Bool.and_eq_true] at hok ⊢
      refine ⟨hok.1, ?_⟩
      rw [List.all_eq_true] at hok ⊢
      intro q hq
      have hq2 := hok.2 q hq
      rw [Bool.and_eq_true] at hq2 ⊢
      exact ⟨ValGoodB_mono _ _ _ (by omega) hq2.1, hq2.2⟩
    · have hieq : i = s.frames.length := by omega
      subst hieq
      refine ⟨⟨some p, [], []⟩, createChild_getElem_new s p, ?_⟩
      apply frameOk_intro
      · rw [if_neg (show ¬(s.frames.length = 0) from by
          have hpos := wf_nonempty hwf
          omega)]
        exact ⟨⟨p, rfl, hp⟩, rfl⟩
      · intro q hq
        simp at hq


theorem wf_parentLT {s : EvalState} (hwf : Wf s) : parentLT s := by
  intro i fr hfr p hp
  have hi : i < s.frames.length := by
    by_contra hge
    rw [List.getElem?_eq_none (by omega)] at hfr
    exact absurd hfr (by simp)
  obtain ⟨fr', hfr', hok⟩ := wf_frame hwf hi
  rw [hfr] at hfr'
  obtain rfl : fr = fr' := by injection hfr'
  by_cases hi0 : i = 0
  · subst hi0
    rw [(frameOk_root hok).1] at hp
    exact absurd hp (by simp)
  · obtain ⟨⟨p', hp', hplt⟩, _⟩ := frameOk_child hi0 hok
    rw [hp'] at hp
    obtain rfl : p' = p := by injection hp
    exact hplt

theorem findAux_fuel_irrel {s : EvalState} (hp : parentLT s) (n : String) :
    ∀ e, ∀ f1 f2, e < f1 → e < f2 →
      Environment.findAux s f1 e n = Environment.findAux s f2 e n := by
  intro e
  induction e using Nat.strong_induction_on with
  | _ e ih =>
    intro f1 f2 h1 h2
    obtain ⟨f1', rfl⟩ : ∃ f1', f1 = f1' + 1 := ⟨f1 - 1, by omega⟩
    obtain ⟨f2', rfl⟩ : ∃ f2', f2 = f2' + 1 := ⟨f2 - 1, by omega⟩
    unfold Environment.findAux
    cases hfr : s.frames[e]? with
    | none => rfl
    | some fr =>
      dsimp only []
      by_cases hc : (containsKey fr.data n || containsKey fr.builtin n) = true
      · rw [if_pos hc, if_pos hc]
      · rw [if_neg hc, if_neg hc]
        cases hpar : fr.parent with
        | none => rfl
        | some p =>
          have hplt : p < e := hp e fr hfr p hpar
          exact ih p hplt f1' f2' (by omega) (by omega)

theorem find_eq {s : EvalState} (hp : parentLT s) (e : Nat) (n : String) :
    Environment.find s e n =
      (match s.frames[e]? with
      | none => none
      | some fr =>
        if containsKey fr.data n || containsKey fr.builtin n then some e
        else
          match fr.parent with
          | some p => Environment.find s p n
          | none => none) := by
  show Environment.findAux s (e + 1) e n = _
  unfold Environment.findAux
  cases hfr : s.frames[e]? with
  | none => rfl
  | some fr =>
    dsimp only []
    by_cases hc : (containsKey fr.data n || containsKey fr.builtin n) = true
    · rw [if_pos hc, if_pos hc]
    · rw [if_neg hc, if_neg hc]
      cases hpar : fr.parent with
      | none => rfl
      | some p =>
        have hplt : p < e := hp e fr hfr p hpar
        exact findAux_fuel_irrel hp n p e (p + 1) (by omega) (by omega)

theorem find_mem {s : EvalState} {e : Nat} {n : String} {i : Nat}
    (h : Environment.find s e n = some i) :
    ∃ fr, s.frames[i]? = some fr ∧
      (containsKey fr.data n || containsKey fr.builtin n) = true := by
  have key : ∀ fuel e, Environment.findAux s fuel e n = some i →
      ∃ fr, s.frames[i]? = some fr ∧
        (containsKey fr.data n || containsKey fr.builtin n) = true := by
    intro fuel
    induction fuel with
    | zero => intro e h; exact absurd h (by simp [Environment.findAux])
    | succ fuel ih =>
      intro e h
      unfold Environment.findAux at h
      cases hfr : s.frames[e]? with
      | none => rw [hfr] at h; exact absurd h (by simp)
      | some fr =>
        rw [hfr] at h
        dsimp only [] at h
        by_cases hc : (containsKey fr.data n || containsKey fr.builtin n) = true
        · rw [if_pos hc] at h
          obtain rfl : e = i := by injection h
          exact ⟨fr, hfr, hc⟩
        · rw [if_neg hc] at h
          cases hpar : fr.parent with
          | none => rw [hpar] at h; exact absurd h (by simp)
          | some p => rw [hpar] at h; exact ih p h
  exact key (e + 1) e h

theorem find_lt {s : EvalState} {e : Nat} {n : String} {i : Nat}
    (h : Environment.find s e n = some i) : i < s.frames.length := by
  obtain ⟨fr, hfr, _⟩ := find_mem h
  by_contra hge
  rw [List.getElem?_eq_none (by omega)] at hfr
  exact absurd hfr (by simp)

theorem find_of_defaults {s : EvalState} (hwf : Wf s) {n : String}
    (hn : containsKey defaults n = true) :
    ∀ e, e < s.frames.length → ∃ i, Environment.find s e n = some i := by
  intro e
  induction e using Nat.strong_induction_on with
  | _ e ih =>
    intro he
    obtain ⟨fr, hfr, hok⟩ := wf_frame hwf he
    rw [find_eq (wf_parentLT hwf), hfr]
    dsimp only []
    by_cases hc : (containsKey fr.data n || containsKey fr.builtin n) = true
    · rw [if_pos hc]; exact ⟨e, rfl⟩
    · rw [if_neg hc]
      by_cases he0 : e = 0
      · subst he0
        rw [(frameOk_root hok).2] at hc
        simp [hn] at hc
      · obtain ⟨⟨p, hpar, hplt⟩, _⟩ := frameOk_child he0 hok
        rw [hpar]
        exact ih p hplt (by omega)

theorem get_some_of_defaults {s : EvalState} (hwf : Wf s) {e : Nat}
    (he : e < s.frames.length) {n : String} (hn : containsKey defaults n = true) :
    ∃ ev, Environment.get s e n = some ev := by
  obtain ⟨i, hfind⟩ := find_of_defaults hwf hn e he
  obtain ⟨fr, hfr, hc⟩ := find_mem hfind
  unfold Environment.get
  rw [hfind]
  dsimp only []
  rw [hfr]
  dsimp only []
  cases hb : lookupKey fr.builtin n with
  | some f => exact ⟨.NativeFn f, rfl⟩
  | none =>
    have hcd : containsKey fr.data n = true := by
      rcases Bool.or_eq_true _ _ |>.mp hc with h | h
      · exact h
      · obtain ⟨v, hv⟩ := lookupKey_some_of_containsKey h
        rw [hv] at hb
        exact absurd hb (by simp)
    obtain ⟨v, hv⟩ := lookupKey_some_of_containsKey hcd
    rw [hv]
    exact ⟨.Val v, rfl⟩

theorem get_val_good {s : EvalState} (hwf : Wf s) {e : Nat} {n : String} {v : MalVal}
    (h : Environment.get s e n = some (.Val v)) :
    ValGoodB s.frames.length v = true ∧ ResGoodB v = true := by
  unfold Environment.get at h
  cases hfind : Environment.find s e n with
  | none => rw [hfind] at h; exact absurd h (by simp)
  | some i =>
    rw [hfind] at h
    dsimp only [] at h
    have hi : i < s.frames.length := find_lt hfind
    obtain ⟨fr, hfr, hok⟩ := wf_frame hwf hi
    rw [hfr] at h
    dsimp only [] at h
    cases hb : lookupKey fr.builtin n with
    | some f => rw [hb] at h; exact absurd h (by simp)
    | none =>
      rw [hb] at h
      dsimp only [] at h
      cases hd : lookupKey fr.data n with
      | none => rw [hd] at h; exact absurd h (by simp)
      | some v' =>
        rw [hd] at h
        obtain rfl : v' = v := by injection h with h2; injection h2
        obtain ⟨q, hq, hqv⟩ := lookupKey_mem hd
        have := frameOk_data hok q hq
        rwa [hqv] at this

theorem get_nativefn_defaults {s : EvalState} (hwf : Wf s) {e : Nat} {n : String}
    {f : NativeFn} (h : Environment.get s e n = some (.NativeFn f)) :
    containsKey defaults n = true ∧ lookupKey defaults n = some f := by
  unfold Environment.get at h
  cases hfind : Environment.find s e n with
  | none => rw [hfind] at h; exact absurd h (by simp)
  | some i =>
    rw [hfind] at h
    dsimp only [] at h
    have hi : i < s.frames.length := find_lt hfind
    obtain ⟨fr, hfr, hok⟩ := wf_frame hwf hi
    rw [hfr] at h
    dsimp only [] at h
    cases hb : lookupKey fr.builtin n with
    | some f' =>
      rw [hb] at h
      obtain rfl : f' = f := by injection h with h2; injection h2
      by_cases hi0 : i = 0
      · subst hi0
        rw [(frameOk_root hok).2] at hb
        exact ⟨containsKey_of_lookupKey_some hb, hb⟩
      · rw [(frameOk_child hi0 hok).2] at hb
        exact absurd hb (by simp [lookupKey])
    | none =>
      rw [hb] at h
      dsimp only [] at h
      cases hd : lookupKey fr.data n with
      | none => rw [hd] at h; exact absurd h (by simp)
      | some v => rw [hd] at h; exact absurd h (by simp)

/-! ## State extension and frame preservation -/


theorem StExt_refl (s : EvalState) : StExt s s :=
  ⟨le_rfl, fun _ _ fr hfr => ⟨fr, hfr, rfl, rfl⟩⟩

theorem PE_refl (s : EvalState) (e : Nat) : PreservedExcept s s e :=
  fun _ _ _ fr hfr => ⟨fr, hfr, rfl⟩

theorem StateOK_refl {s : EvalState} (hwf : Wf s) (e : Nat) : StateOK s s e :=
  ⟨hwf, StExt_refl s, PE_refl s e⟩

theorem StExt_trans {s1 s2 s3 : EvalState} (h1 : StExt s1 s2) (h2 : StExt s2 s3) :
    StExt s1 s3 := by
  refine ⟨le_trans h1.1 h2.1, fun i hi fr hfr => ?_⟩
  obtain ⟨fr2, hfr2, hp2, hb2⟩ := h1.2 i hi fr hfr
  obtain ⟨fr3, hfr3, hp3, hb3⟩ := h2.2 i (by have := h1.1; omega) fr2 hfr2
  exact ⟨fr3, hfr3, by rw [hp3, hp2], by rw [hb3, hb2]⟩

theorem PE_comp {s1 s2 s3 : EvalState} {e e' : Nat}
    (hext : StExt s1 s2) (h1 : PreservedExcept s1 s2 e) (h2 : PreservedExcept s2 s3 e')
    (hee : ∀ i, i < s1.frames.length → i ≠ e → i ≠ e') :
    PreservedExcept s1 s3 e := by
  intro i hi hie fr hfr
  obtain ⟨fr2, hfr2, hd2⟩ := h1 i hi hie fr hfr
  obtain ⟨fr3, hfr3, hd3⟩ := h2 i (by have := hext.1; omega) (hee i hi hie) fr2 hfr2
  exact ⟨fr3, hfr3, by rw [hd3, hd2]⟩

theorem PE_weaken {s s' : EvalState} {e e' : Nat} (h : PreservedExcept s s' e)
    (he : ∀ i, i < s.frames.length → i ≠ e' → i ≠ e) :
    PreservedExcept s s' e' :=
  fun i hi hie fr hfr => h i hi (he i hi hie) fr hfr

theorem StExt_set (s : EvalState) (e : Nat) (n : String) (v : MalVal) :
    StExt s (Environment.set s e n v) := by
  refine ⟨by rw [set_length], fun i hi fr hfr => ?_⟩
  by_cases hie : i = e
  · subst hie
    refine ⟨{ fr with data := (n, v) :: fr.data }, ?_, rfl, rfl⟩
    rw [set_getElem_eq, hfr]
    rfl
  · exact ⟨fr, by rw [set_getElem_ne _ _ _ _ _ hie]; exact hfr, rfl, rfl⟩

theorem PE_set (s : EvalState) (e : Nat) (n : String) (v : MalVal) :
    PreservedExcept s (Environment.set s e n v) e := by
  intro i hi hie fr hfr
  exact ⟨fr, by rw [set_getElem_ne _ _ _ _ _ hie]; exact hfr, rfl⟩

theorem StExt_createChild (s : EvalState) (p : Nat) : StExt s (createChild s p).1 := by
  refine ⟨by rw [createChild_length]; omega, fun i hi fr hfr => ?_⟩
  exact ⟨fr, by rw [createChild_getElem_old _ _ _ hi]; exact hfr, rfl, rfl⟩

theorem PE_createChild (s : EvalState) (p : Nat) (e : Nat) :
    PreservedExcept s (createChild s p).1 e := by
  intro i hi _ fr hfr
  exact ⟨fr, by rw [createChild_getElem_old _ _ _ hi]; exact hfr, rfl⟩

theorem setAll_length (s : EvalState) (e : Nat) :
    ∀ l, (setAll s e l).frames.length = s.frames.length := by
  intro l
  induction l generalizing s with
  | nil => rfl
  | cons q rest ih =>
    obtain ⟨n, v⟩ := q
    show (setAll (Environment.set s e n v) e rest).frames.length = _
    rw [ih (Environment.set s e n v), set_length]

theorem StExt_setAll (s : EvalState) (e : Nat) :
    ∀ l, StExt s (setAll s e l) := by
  intro l
  induction l generalizing s with
  | nil => exact StExt_refl s
  | cons q rest ih =>
    obtain ⟨n, v⟩ := q
    exact StExt_trans (StExt_set s e n v) (ih (Environment.set s e n v))

theorem PE_setAll (s : EvalState) (e : Nat) :
    ∀ l, PreservedExcept s (setAll s e l) e := by
  intro l
  induction l generalizing s with
  | nil => exact PE_refl s e
  | cons q rest ih =>
    obtain ⟨n, v⟩ := q
    exact PE_comp (StExt_set s e n v) (PE_set s e n v)
      (ih (Environment.set s e n v)) (fun i _ hie => hie)

theorem setAll_wf {s : EvalState} (hwf : Wf s) {e : Nat} (he : e < s.frames.length) :
    ∀ l, (∀ q ∈ l, ValGoodB s.frames.length q.2 = true ∧ ResGoodB q.2 = true) →
      Wf (setAll s e l) := by
  intro l
  induction l generalizing s with
  | nil => intro _; exact hwf
  | cons q rest ih =>
    intro hl
    obtain ⟨n, v⟩ := q
    have hq := hl (n, v) (List.mem_cons_self _ _)
    have hwf2 := @wf_set s hwf e he n v hq.1 hq.2
    exact ih hwf2 (by rw [set_length]; exact he)
      (fun q hq2 => by
        have := hl q (List.mem_cons_of_mem _ hq2)
        rw [set_length]
        exact this)

theorem valGoodList_mem {nf : Nat} {l : List MalVal} (h : ValGoodListB nf l = true) :
    ∀ v ∈ l, ValGoodB nf v = true := by
  induction l with
  | nil => simp
  | cons x rest ih =>
    simp only [ValGoodListB, Bool.and_eq_true] at h
    intro v hv
    rcases List.mem_cons.mp hv with rfl | hv2
    · exact h.1
    · exact ih h.2 v hv2

theorem resGoodList_mem {l : List MalVal} (h : ResGoodListB l = true) :
    ∀ v ∈ l, ResGoodB v = true := by
  induction l with
  | nil => simp
  | cons x rest ih =>
    simp only [ResGoodListB, Bool.and_eq_true] at h
    intro v hv
    rcases List.mem_cons.mp hv with rfl | hv2
    · exact h.1
    · exact ih h.2 v hv2

/-! ## Native-function call shapes -/

theorem add_shape : ∀ (args : List MalVal) (acc : Int),
    (∃ i, builtin.add args acc = .ok (intV i)) ∨
    builtin.add args acc = .error .NotANumber := by
  intro args
  induction args with
  | nil => intro acc; exact .inl ⟨acc, rfl⟩
  | cons v rest ih =>
    intro acc
    cases v with
    | Atom a =>
      cases a with
      | Int n => exact ih (wrap64 (acc + n))
      | _ => exact .inr rfl
    | _ => exact .inr rfl

theorem mul_shape : ∀ (args : List MalVal) (acc : Int),
    (∃ i, builtin.mul args acc = .ok (intV i)) ∨
    builtin.mul args acc = .error .NotANumber := by
  intro args
  induction args with
  | nil => intro acc; exact .inl ⟨acc, rfl⟩
  | cons v rest ih =>
    intro acc
    cases v with
    | Atom a =>
      cases a with
      | Int n => exact ih (wrap64 (acc * n))
      | _ => exact .inr rfl
    | _ => exact .inr rfl

theorem subLoop_shape : ∀ (args : List MalVal) (f : Bool) (a : Int) (c : Nat),
    (∃ p, builtin.subLoop args f a c = .ok p) ∨
    builtin.subLoop args f a c = .error .NotANumber := by
  intro args
  induction args with
  | nil => intro f a c; exact .inl ⟨(a, c), rfl⟩
  | cons v rest ih =>
    intro f a c
    cases v with
    | Atom at' =>
      cases at' with
      | Int n =>
        cases f with
        | true =>
          simpa [builtin.subLoop] using ih false n (c + 1)
        | false =>
          simpa [builtin.subLoop] using ih false (wrap64 (a - n)) (c + 1)
      | _ => exact .inr rfl
    | _ => exact .inr rfl

theorem sub_shape (args : List MalVal) :
    (∃ i, builtin.sub args = .ok (intV i)) ∨
    builtin.sub args = .error .NotANumber := by
  rcases subLoop_shape args true 0 0 with ⟨⟨a, c⟩, hp⟩ | hp
  · unfold builtin.sub
    rw [hp]
    dsimp only []
    by_cases hc : c = 1
    · rw [if_pos hc]; exact .inl ⟨wrap64 (-a), rfl⟩
    · rw [if_neg hc]; exact .inl ⟨a, rfl⟩
  · unfold builtin.sub
    rw [hp]
    exact .inr rfl

theorem into_int_error {a : MalVal} {e : EvalError}
    (h : builtin.into_int a = .error e) : e = .NotANumber := by
  cases a with
  | Atom at' =>
    cases at' <;> first
      | (exfalso; simp [builtin.into_int] at h; done)
      | (exact (Except.error.inj h).symm)
  | _ => exact (Except.error.inj h).symm

theorem intCmp_shape (op : Int → Int → Bool) (args : List MalVal) :
    (∃ a : MalAtom, builtin.intCmp op args = .ok (.Atom a) ∧
      (a = .True ∨ a = .False)) ∨
    builtin.intCmp op args = .error .NotANumber ∨
    builtin.intCmp op args = .error .InvalidArgs := by
  match args with
  | [] => exact .inr (.inr rfl)
  | [a] => exact .inr (.inr rfl)
  | [a, b] =>
    unfold builtin.intCmp
    dsimp only []
    cases ha : builtin.into_int a with
    | error e =>
      dsimp only []
      rw [into_int_error ha]
      exact .inr (.inl rfl)
    | ok x =>
      dsimp only []
      cases hb : builtin.into_int b with
      | error e =>
        dsimp only []
        rw [into_int_error hb]
        exact .inr (.inl rfl)
      | ok y =>
        dsimp only []
        by_cases hop : op x y
        · exact .inl ⟨.True, by simp [hop], .inl rfl⟩
        · exact .inl ⟨.False, by simp [hop], .inr rfl⟩
  | a :: b :: c :: rest => exact .inr (.inr rfl)

theorem atomGood (nf : Nat) (a : MalAtom) : ValGoodB nf (.Atom a) = true := by
  simp [ValGoodB]

theorem applyNative_props (f : NativeFn) (args : List MalVal) (nf : Nat)
    (hv : ValGoodListB nf args = true) (hr : ResGoodListB args = true) :
    (match applyNative f args with
     | .ok v => ValGoodB nf v = true ∧ ResGoodB v = true
     | .error er => ∀ m, er ≠ .FunctionUndefined m) := by
  cases f with
  | add =>
    rcases add_shape args 0 with ⟨i, hi⟩ | hi
    · rw [show applyNative .add args = builtin.add args 0 from rfl, hi]
      exact ⟨atomGood nf _, rfl⟩
    · rw [show applyNative .add args = builtin.add args 0 from rfl, hi]
      intro m
      simp
  | sub =>
    rcases sub_shape args with ⟨i, hi⟩ | hi
    · rw [show applyNative .sub args = builtin.sub args from rfl, hi]
      exact ⟨atomGood nf _, rfl⟩
    · rw [show applyNative .sub args = builtin.sub args from rfl, hi]
      intro m
      simp
  | mul =>
    rcases mul_shape args 1 with ⟨i, hi⟩ | hi
    · rw [show applyNative .mul args = builtin.mul args 1 from rfl, hi]
      exact ⟨atomGood nf _, rfl⟩
    · rw [show applyNative .mul args = builtin.mul args 1 from rfl, hi]
      intro m
      simp
  | eq =>
    show (match builtin.eq args with
      | .ok v => ValGoodB nf v = true ∧ ResGoodB v = true
      | .error er => ∀ m, er ≠ .FunctionUndefined m)
    match args with
    | [] =>
      rw [show builtin.eq [] = .error .InvalidArgs from rfl]
      intro m
      simp
    | [a] =>
      rw [show builtin.eq [a] = .error .InvalidArgs from by cases a <;> rfl]
      intro m
      simp
    | [a, b] =>
      rw [show builtin.eq [a, b] =
        .ok (.Atom (if a = b then .True else .False)) from rfl]
      by_cases hab : a = b
      · rw [if_pos hab]
        exact ⟨atomGood nf _, rfl⟩
      · rw [if_neg hab]
        exact ⟨atomGood nf _, rfl⟩
    | a :: b :: c :: rest =>
      rw [show builtin.eq (a :: b :: c :: rest) = .error .InvalidArgs from by
        cases a <;> rfl]
      intro m
      simp
  | gt =>
    rcases intCmp_shape (fun a b => b < a) args with ⟨a, ha, hab⟩ | ha | ha
    · rw [show applyNative .gt args = builtin.intCmp (fun a b => b < a) args from rfl, ha]
      exact ⟨atomGood nf _, by rcases hab with rfl | rfl <;> rfl⟩
    · rw [show applyNative .gt args = builtin.intCmp (fun a b => b < a) args from rfl, ha]
      intro m; simp
    · rw [show applyNative .gt args = builtin.intCmp (fun a b => b < a) args from rfl, ha]
      intro m; simp
  | gte =>
    rcases intCmp_shape (fun a b => b ≤ a) args with ⟨a, ha, hab⟩ | ha | ha
    · rw [show applyNative .gte args = builtin.intCmp (fun a b => b ≤ a) args from rfl, ha]
      exact ⟨atomGood nf _, by rcases hab with rfl | rfl <;> rfl⟩
    · rw [show applyNative .gte args = builtin.intCmp (fun a b => b ≤ a) args from rfl, ha]
      intro m; simp
    · rw [show applyNative .gte args = builtin.intCmp (fun a b => b ≤ a) args from rfl, ha]
      intro m; simp
  | lt =>
    rcases intCmp_shape (fun a b => a < b) args with ⟨a, ha, hab⟩ | ha | ha
    · rw [show applyNative .lt args = builtin.intCmp (fun a b => a < b) args from rfl, ha]
      exact ⟨atomGood nf _, by rcases hab with rfl | rfl <;> rfl⟩
    · rw [show applyNative .lt args = builtin.intCmp (fun a b => a < b) args from rfl, ha]
      intro m; simp
    · rw [show applyNative .lt args = builtin.intCmp (fun a b => a < b) args from rfl, ha]
      intro m; simp
  | lte =>
    rcases intCmp_shape (fun a b => a ≤ b) args with ⟨a, ha, hab⟩ | ha | ha
    · rw [show applyNative .lte args = builtin.intCmp (fun a b => a ≤ b) args from rfl, ha]
      exact ⟨atomGood nf _, by rcases hab with rfl | rfl <;> rfl⟩
    · rw [show applyNative .lte args = builtin.intCmp (fun a b => a ≤ b) args from rfl, ha]
      intro m; simp
    · rw [show applyNative .lte args = builtin.intCmp (fun a b => a ≤ b) args from rfl, ha]
      intro m; simp
  | list =>
    show ValGoodB nf (.List args) = true ∧ ResGoodB (.List args) = true
    constructor
    · show ValGoodListB nf args = true
      exact hv
    · show ResGoodListB args = true
      exact hr
  | is_list =>
    show (match builtin.is_list args with
      | .ok v => ValGoodB nf v = true ∧ ResGoodB v = true
      | .error er => ∀ m, er ≠ .FunctionUndefined m)
    match args with
    | [] =>
      rw [show builtin.is_list [] = .error .InvalidArgs from rfl]
      intro m; simp
    | [a] =>
      cases a with
      | List l => exact ⟨atomGood nf _, rfl⟩
      | Atom at' => exact ⟨atomGood nf _, rfl⟩
      | Vector l => exact ⟨atomGood nf _, rfl⟩
      | AssocArray l => exact ⟨atomGood nf _, rfl⟩
      | Fn e b d => exact ⟨atomGood nf _, rfl⟩
    | a :: b :: rest =>
      rw [show builtin.is_list (a :: b :: rest) = .error .InvalidArgs from by
        cases a <;> rfl]
      intro m; simp
  | is_empty =>
    show (match builtin.is_empty args with
      | .ok v => ValGoodB nf v = true ∧ ResGoodB v = true
      | .error er => ∀ m, er ≠ .FunctionUndefined m)
    match args with
    | [] =>
      rw [show builtin.is_empty [] = .error .InvalidArgs from rfl]
      intro m; simp
    | [a] =>
      cases a with
      | List l =>
        rw [show builtin.is_empty [MalVal.List l] =
          .ok (.Atom (if l.isEmpty then .True else .False)) from rfl]
        by_cases hl : l.isEmpty
        · rw [if_pos hl]; exact ⟨atomGood nf _, rfl⟩
        · rw [if_neg hl]; exact ⟨atomGood nf _, rfl⟩
      | Atom at' => intro m; simp [builtin.is_empty]
      | Vector l => intro m; simp [builtin.is_empty]
      | AssocArray l => intro m; simp [builtin.is_empty]
      | Fn e b d => intro m; simp [builtin.is_empty]
    | a :: b :: rest =>
      rw [show builtin.is_empty (a :: b :: rest) = .error .InvalidArgs from by
        cases a <;> rfl]
      intro m; simp
  | count =>
    show (match builtin.count args with
      | .ok v => ValGoodB nf v = true ∧ ResGoodB v = true
      | .error er => ∀ m, er ≠ .FunctionUndefined m)
    match args with
    | [] =>
      rw [show builtin.count [] = .error .InvalidArgs from rfl]
      intro m; simp
    | [a] =>
      cases a with
      | List l => exact ⟨atomGood nf _, rfl⟩
      | Atom at' => intro m; simp [builtin.count]
      | Vector l => intro m; simp [builtin.count]
      | AssocArray l => intro m; simp [builtin.count]
      | Fn e b d => intro m; simp [builtin.count]
    | a :: b :: rest =>
      rw [show builtin.count (a :: b :: rest) = .error .InvalidArgs from by
        cases a <;> rfl]
      intro m; simp

/-! ## Evaluator invariants -/


theorem collectBinds_error : ∀ {l : List MalVal} {e : EvalError},
    collectBinds l = .error e → e = .NotASymbol := by
  intro l
  induction l with
  | nil => intro e h; exact absurd h (by simp [collectBinds])
  | cons v rest ih =>
    intro e h
    cases v with
    | Atom a =>
      cases a with
      | Sym n =>
        unfold collectBinds at h
        cases hc : collectBinds rest with
        | ok binds => rw [hc] at h; exact absurd h (by simp [Except.map])
        | error er =>
          rw [hc] at h
          simp only [Except.map] at h
          have her : er = e := Except.error.inj h
          subst her
          exact ih hc
      | _ => exact (Except.error.inj h).symm
    | _ => exact (Except.error.inj h).symm

theorem handle_fn_props {s : EvalState} (hwf : Wf s) {e : Nat}
    (he : e < s.frames.length) {list : List MalVal}
    (hl : ValGoodListB s.frames.length list = true) :
    EvalOutOK s e (handle_fn e list s) := by
  unfold handle_fn
  by_cases hlen : list.length ≠ 3
  · rw [if_pos hlen]
    exact ⟨StateOK_refl hwf e, fun m => by simp⟩
  · rw [if_neg hlen]
    have hlen3 : list.length = 3 := by omega
    match list, hlen3 with
    | [x, y, body], _ =>
      simp only [ValGoodListB, Bool.and_eq_true] at hl
      obtain ⟨hx, hy, hbody, -⟩ := hl
      cases y with
      | List vars =>
        dsimp only []
        cases hc : collectBinds vars with
        | ok binds =>
          refine ⟨StateOK_refl hwf e, ?_, rfl⟩
          show (decide (e < s.frames.length) && ValGoodB s.frames.length body) = true
          simp only [Bool.and_eq_true, decide_eq_true_eq]
          exact ⟨he, hbody⟩
        | error er =>
          refine ⟨StateOK_refl hwf e, fun m => ?_⟩
          rw [collectBinds_error hc]
          simp
      | Atom a => exact ⟨StateOK_refl hwf e, fun m => by simp⟩
      | Vector l2 => exact ⟨StateOK_refl hwf e, fun m => by simp⟩
      | AssocArray l2 => exact ⟨StateOK_refl hwf e, fun m => by simp⟩
      | Fn e2 b2 d2 => exact ⟨StateOK_refl hwf e, fun m => by simp⟩

theorem StateOK_step {s s1 s2 : EvalState} {e c : Nat} (h1 : StateOK s s1 e)
    (hc : c = e ∨ s.frames.length ≤ c) (h2 : StateOK s1 s2 c) : StateOK s s2 e := by
  refine ⟨h2.1, StExt_trans h1.2.1 h2.2.1, PE_comp h1.2.1 h1.2.2 h2.2.2 ?_⟩
  intro i hi hie
  rcases hc with rfl | hcl
  · exact hie
  · omega

theorem EvalOutOK_absorb {s s1 : EvalState} {e c : Nat} (h1 : StateOK s s1 e)
    (hc : c = e ∨ s.frames.length ≤ c) :
    ∀ {out : EvalOut MalVal}, EvalOutOK s1 c out → EvalOutOK s e out := by
  intro out h
  cases out with
  | ok v s2 => exact ⟨StateOK_step h1 hc h.1, h.2⟩
  | err er s2 => exact ⟨StateOK_step h1 hc h.1, h.2⟩
  | panic m => trivial
  | outOfFuel => trivial

theorem EvalOutListOK_absorb {s s1 : EvalState} {e c : Nat} (h1 : StateOK s s1 e)
    (hc : c = e ∨ s.frames.length ≤ c) :
    ∀ {out : EvalOut (List MalVal)}, EvalOutListOK s1 c out → EvalOutListOK s e out := by
  intro out h
  cases out with
  | ok v s2 => exact ⟨StateOK_step h1 hc h.1, h.2⟩
  | err er s2 => exact ⟨StateOK_step h1 hc h.1, h.2⟩
  | panic m => trivial
  | outOfFuel => trivial

theorem eval_list_cons_eq (fuel : Nat) (hd : MalVal) (tl : List MalVal) (env : Nat)
    (s : EvalState) :
    eval (fuel + 1) (.List (hd :: tl)) env s =
      (if hd = .Atom (.Sym "def!") then handle_def fuel env (hd :: tl) s
      else if hd = .Atom (.Sym "let*") then handle_let fuel env (hd :: tl) s
      else if hd = .Atom (.Sym "fn*") then handle_fn env (hd :: tl) s
      else if hd = .Atom (.Sym "do") then handle_do fuel env (hd :: tl) s
      else
        match eval_ast fuel (.List (hd :: tl)) env s with
        | .ok evaluated s' =>
          match evaluated with
          | .List evaled =>
            match evaled with
            | [] => .panic "remove from empty Vec"
            | sym :: args =>
              match sym with
              | .Atom (.Sym symName) =>
                match Environment.get s' env symName with
                | some (.NativeFn f) =>
                  match applyNative f args with
                  | .ok v => .ok v s'
                  | .error e => .err e s'
                | some (.Val _) => .err (.BadFunctionDesignator symName) s'
                | none => .err (.FunctionUndefined symName) s'
              | .Fn fenv binds body =>
                if binds.length ≠ args.length then .err .InvalidArgs s'
                else
                  let c := createChild s' fenv
                  eval fuel body c.2 (setAll c.1 c.2 (binds.zip args))
              | other => .err (.BadFunctionDesignator other.str) s'
          | _ => .panic "list evaluated to non list"
        | .err e s' => .err e s'
        | .panic m => .panic m
        | .outOfFuel => .outOfFuel) := rfl

theorem evalList_cons_eq (fuel : Nat) (v : MalVal) (rest : List MalVal) (env : Nat)
    (s : EvalState) :
    evalList (fuel + 1) (v :: rest) env s =
      (match eval fuel v env s with
      | .ok x s' =>
        match evalList fuel rest env s' with
        | .ok xs s'' => .ok (x :: xs) s''
        | .err e s'' => .err e s''
        | .panic m => .panic m
        | .outOfFuel => .outOfFuel
      | .err e s' => .err e s'
      | .panic m => .panic m
      | .outOfFuel => .outOfFuel) := rfl

theorem handle_def_succ_eq (fuel : Nat) (env : Nat) (list : List MalVal) (s : EvalState) :
    handle_def (fuel + 1) env list s =
      (if list.length ≠ 3 then .err .InvalidArgs s
      else
        match list with
        | [_, .Atom (.Sym symName), e3] =>
          match eval fuel e3 env s with
          | .ok v s' => .ok v (Environment.set s' env symName v)
          | .err e s' => .err e s'
          | .panic m => .panic m
          | .outOfFuel => .outOfFuel
        | _ => .err .NotASymbol s) := rfl

theorem handle_let_succ_eq (fuel : Nat) (env : Nat) (list : List MalVal) (s : EvalState) :
    handle_let (fuel + 1) env list s =
      (if list.length ≠ 3 then .err .InvalidArgs s
      else
        match list with
        | [_, .List vars, body] =>
          let c := createChild s env
          if vars.length % 2 ≠ 0 then .err .InvalidArgs c.1
          else
            match evalPairs fuel vars c.2 c.1 with
            | .ok _ s2 => eval fuel body c.2 s2
            | .err e s2 => .err e s2
            | .panic m => .panic m
            | .outOfFuel => .outOfFuel
        | _ => .err .NotAList s) := rfl

theorem evalPairs_pair_eq (fuel : Nat) (sym toEval : MalVal) (rest : List MalVal)
    (child : Nat) (s : EvalState) :
    evalPairs (fuel + 1) (sym :: toEval :: rest) child s =
      (match sym with
      | .Atom (.Sym symName) =>
        match eval fuel toEval child s with
        | .ok v s' => evalPairs fuel rest child (Environment.set s' child symName v)
        | .err e s' => .err e s'
        | .panic m => .panic m
        | .outOfFuel => .outOfFuel
      | _ => .err .NotASymbol s) := rfl

theorem evalDo_cons_eq (fuel : Nat) (v : MalVal) (rest : List MalVal) (env : Nat)
    (s : EvalState) (ret : MalVal) :
    evalDo (fuel + 1) (v :: rest) env s ret =
      (match eval fuel v env s with
      | .ok r s' => evalDo fuel rest env s' r
      | .err e s' => .err e s'
      | .panic m => .panic m
      | .outOfFuel => .outOfFuel) := rfl

theorem valGoodList_tail {nf : Nat} {l : List MalVal} (h : ValGoodListB nf l = true) :
    ValGoodListB nf (l.drop 1) = true := by
  cases l with
  | nil => simp [ValGoodListB]
  | cons v rest =>
    simp only [ValGoodListB, Bool.and_eq_true] at h
    simpa using h.2

theorem EvalOutUnitOK_absorb {s s1 : EvalState} {e c : Nat} (h1 : StateOK s s1 e)
    (hc : c = e ∨ s.frames.length ≤ c) :
    ∀ {out : EvalOut Unit}, EvalOutUnitOK s1 c out → EvalOutUnitOK s e out := by
  intro out h
  cases out with
  | ok v s2 => exact StateOK_step h1 hc h
  | err er s2 => exact ⟨StateOK_step h1 hc h.1, h.2⟩
  | panic m => trivial
  | outOfFuel => trivial

theorem EvalOutOK_exc_weaken {s : EvalState} {e c : Nat}
    (hw : ∀ i, i < s.frames.length → i ≠ e → i ≠ c) :
    ∀ {out : EvalOut MalVal}, EvalOutOK s c out → EvalOutOK s e out := by
  intro out h
  cases out with
  | ok v s2 => exact ⟨⟨h.1.1, h.1.2.1, PE_weaken h.1.2.2 hw⟩, h.2⟩
  | err er s2 => exact ⟨⟨h.1.1, h.1.2.1, PE_weaken h.1.2.2 hw⟩, h.2⟩
  | panic m => trivial
  | outOfFuel => trivial

set_option maxHeartbeats 3200000 in
theorem eval_props : ∀ fuel : Nat,
    (∀ (ast : MalVal) (e : Nat) (s : EvalState), Wf s → e < s.frames.length →
      ValGoodB s.frames.length ast = true → EvalOutOK s e (eval fuel ast e s)) ∧
    (∀ (ast : MalVal) (e : Nat) (s : EvalState), Wf s → e < s.frames.length →
      ValGoodB s.frames.length ast = true → EvalOutOK s e (eval_ast fuel ast e s)) ∧
    (∀ (l : List MalVal) (e : Nat) (s : EvalState), Wf s → e < s.frames.length →
      ValGoodListB s.frames.length l = true → EvalOutListOK s e (evalList fuel l e s)) ∧
    (∀ (e : Nat) (list : List MalVal) (s : EvalState), Wf s → e < s.frames.length →
      ValGoodListB s.frames.length list = true → EvalOutOK s e (handle_def fuel e list s)) ∧
    (∀ (e : Nat) (list : List MalVal) (s : EvalState), Wf s → e < s.frames.length →
      ValGoodListB s.frames.length list = true →
      EvalOutOK s s.frames.length (handle_let fuel e list s)) ∧
    (∀ (vars : List MalVal) (c : Nat) (s : EvalState), Wf s → c < s.frames.length →
      ValGoodListB s.frames.length vars = true →
      EvalOutUnitOK s c (evalPairs fuel vars c s)) ∧
    (∀ (e : Nat) (list : List MalVal) (s : EvalState), Wf s → e < s.frames.length →
      ValGoodListB s.frames.length list = true → EvalOutOK s e (handle_do fuel e list s)) ∧
    (∀ (l : List MalVal) (e : Nat) (s : EvalState) (ret : MalVal), Wf s →
      e < s.frames.length → ValGoodListB s.frames.length l = true →
      ValGoodB s.frames.length ret = true → ResGoodB ret = true →
      EvalOutOK s e (evalDo fuel l e s ret)) := by
  intro fuel
  induction fuel with
  | zero =>
    refine ⟨?_, ?_, ?_, ?_, ?_, ?_, ?_, ?_⟩ <;> intros <;> trivial
  | succ fuel ih =>
    obtain ⟨ihe, iha, ihl, ihd, ihlet, ihp, ihdo, ihevdo⟩ := ih
    refine ⟨?_, ?_, ?_, ?_, ?_, ?_, ?_, ?_⟩
    -- eval
    · intro ast e s hwf he hg
      cases ast with
      | Atom a => exact iha (.Atom a) e s hwf he hg
      | Vector l => exact iha (.Vector l) e s hwf he hg
      | AssocArray l => exact iha (.AssocArray l) e s hwf he hg
      | Fn fe fb fd => exact iha (.Fn fe fb fd) e s hwf he hg
      | List list =>
        cases list with
        | nil => exact ⟨StateOK_refl hwf e, rfl, rfl⟩
        | cons hd tl =>
          have hgl : ValGoodListB s.frames.length (hd :: tl) = true := hg
          rw [eval_list_cons_eq]
          by_cases h1 : hd = .Atom (.Sym "def!")
          · rw [if_pos h1]; exact ihd e (hd :: tl) s hwf he hgl
          rw [if_neg h1]
          by_cases h2 : hd = .Atom (.Sym "let*")
          · rw [if_pos h2]
            exact EvalOutOK_exc_weaken (fun i hi _ => by omega)
              (ihlet e (hd :: tl) s hwf he hgl)
          rw [if_neg h2]
          by_cases h3 : hd = .Atom (.Sym "fn*")
          · rw [if_pos h3]; exact handle_fn_props hwf he hgl
          rw [if_neg h3]
          by_cases h4 : hd = .Atom (.Sym "do")
          · rw [if_pos h4]; exact ihdo e (hd :: tl) s hwf he hgl
          rw [if_neg h4]
          have hea := iha (.List (hd :: tl)) e s hwf he hg
          cases heval : eval_ast fuel (.List (hd :: tl)) e s with
          | panic m => trivial
          | outOfFuel => trivial
          | err er s' =>
            rw [heval] at hea
            exact hea
          | ok evaluated s' =>
            rw [heval] at hea
            obtain ⟨hst, hgv, hgr⟩ := hea
            dsimp only []
            cases evaluated with
            | Atom a2 => trivial
            | Vector l2 => trivial
            | AssocArray l2 => trivial
            | Fn fe2 fb2 fd2 => trivial
            | List evaled =>
              dsimp only []
              cases evaled with
              | nil => trivial
              | cons sym args =>
                dsimp only []
                have hgv2 : (ValGoodB s'.frames.length sym &&
                    ValGoodListB s'.frames.length args) = true := hgv
                have hgr2 : (ResGoodB sym && ResGoodListB args) = true := hgr
                rw [Bool.and_eq_true] at hgv2 hgr2
                obtain ⟨hsymv, hargsv⟩ := hgv2
                obtain ⟨hsymr, hargsr⟩ := hgr2
                have he' : e < s'.frames.length := by
                  have := hst.2.1.1
                  omega
                cases sym with
                | Atom a2 =>
                  cases a2 with
                  | Sym n =>
                    dsimp only []
                    have hcont : containsKey defaults n = true := hsymr
                    cases hget : Environment.get s' e n with
                    | none =>
                      exfalso
                      obtain ⟨ev, hev⟩ := get_some_of_defaults hst.1 he' hcont
                      rw [hget] at hev
                      exact absurd hev (by simp)
                    | some ev =>
                      cases ev with
                      | NativeFn f =>
                        dsimp only []
                        have happ := applyNative_props f args s'.frames.length
                          hargsv hargsr
                        cases happly : applyNative f args with
                        | ok v =>
                          dsimp only []
                          rw [happly] at happ
                          exact ⟨hst, happ⟩
                        | error er =>
                          dsimp only []
                          rw [happly] at happ
                          exact ⟨hst, happ⟩
                      | Val v =>
                        dsimp only []
                        exact ⟨hst, fun m => by simp⟩
                  | Nil => exact ⟨hst, fun m => by simp⟩
                  | True => exact ⟨hst, fun m => by simp⟩
                  | False => exact ⟨hst, fun m => by simp⟩
                  | Str s2 => exact ⟨hst, fun m => by simp⟩
                  | Int i2 => exact ⟨hst, fun m => by simp⟩
                | List l2 => exact ⟨hst, fun m => by simp⟩
                | Vector l2 => exact ⟨hst, fun m => by simp⟩
                | AssocArray l2 => exact ⟨hst, fun m => by simp⟩
                | Fn fenv binds body =>
                  dsimp only []
                  have hsymv2 : (decide (fenv < s'.frames.length) &&
                      ValGoodB s'.frames.length body) = true := hsymv
                  rw [Bool.and_eq_true, decide_eq_true_eq] at hsymv2
                  obtain ⟨hfenv, hbody⟩ := hsymv2
                  by_cases harity : binds.length ≠ args.length
                  · rw [if_pos harity]
                    exact ⟨hst, fun m => by simp⟩
                  · rw [if_neg harity]
                    have hwf2 : Wf (createChild s' fenv).1 := wf_createChild hst.1 hfenv
                    have hch : (createChild s' fenv).2 = s'.frames.length := rfl
                    have hlen2 : (createChild s' fenv).1.frames.length =
                        s'.frames.length + 1 := createChild_length s' fenv
                    have hwf3 : Wf (setAll (createChild s' fenv).1
                        (createChild s' fenv).2 (binds.zip args)) := by
                      apply setAll_wf hwf2 (by rw [hch, hlen2]; omega)
                      intro q hq
                      have hq2 := (List.of_mem_zip hq).2
                      rw [hlen2]
                      exact ⟨ValGoodB_mono _ _ _ (by omega)
                          (valGoodList_mem hargsv _ hq2),
                        resGoodList_mem hargsr _ hq2⟩
                    have hlen3 : (setAll (createChild s' fenv).1
                        (createChild s' fenv).2 (binds.zip args)).frames.length =
                        s'.frames.length + 1 := by
                      rw [setAll_length, hlen2]
                    have hbody3 : ValGoodB (setAll (createChild s' fenv).1
                        (createChild s' fenv).2 (binds.zip args)).frames.length
                        body = true := by
                      rw [hlen3]
                      exact ValGoodB_mono _ _ _ (by omega) hbody
                    have hrun := ihe body (createChild s' fenv).2
                      (setAll (createChild s' fenv).1 (createChild s' fenv).2
                        (binds.zip args))
                      hwf3 (by rw [hlen3, hch]; omega) hbody3
                    have hst3 : StateOK s' (setAll (createChild s' fenv).1
                        (createChild s' fenv).2 (binds.zip args))
                        (createChild s' fenv).2 := by
                      refine ⟨hwf3, StExt_trans (StExt_createChild s' fenv)
                        (StExt_setAll _ _ _), ?_⟩
                      exact PE_comp (StExt_createChild s' fenv)
                        (PE_createChild s' fenv (createChild s' fenv).2)
                        (PE_setAll _ _ _) (fun i _ h => h)
                    have hstep : StateOK s (setAll (createChild s' fenv).1
                        (createChild s' fenv).2 (binds.zip args)) e :=
                      StateOK_step hst (.inr (by rw [hch]; exact hst.2.1.1)) hst3
                    exact EvalOutOK_absorb hstep
                      (.inr (by rw [hch]; exact hst.2.1.1)) hrun
    -- eval_ast
    · intro ast e s hwf he hg
      cases ast with
      | Atom a =>
        cases a with
        | Sym n =>
          show EvalOutOK s e
            (match Environment.get s e n with
            | some (.NativeFn _) => .ok (.Atom (.Sym n)) s
            | some (.Val v) => .ok v s
            | none => .err (.SymbolNotFound n) s)
          cases hget : Environment.get s e n with
          | none => exact ⟨StateOK_refl hwf e, fun m => by simp⟩
          | some ev =>
            cases ev with
            | NativeFn f =>
              refine ⟨StateOK_refl hwf e, rfl, ?_⟩
              show containsKey defaults n = true
              exact (get_nativefn_defaults hwf hget).1
            | Val v =>
              have := get_val_good hwf hget
              exact ⟨StateOK_refl hwf e, this.1, this.2⟩
        | Nil => exact ⟨StateOK_refl hwf e, rfl, rfl⟩
        | True => exact ⟨StateOK_refl hwf e, rfl, rfl⟩
        | False => exact ⟨StateOK_refl hwf e, rfl, rfl⟩
        | Str s2 => exact ⟨StateOK_refl hwf e, rfl, rfl⟩
        | Int i2 => exact ⟨StateOK_refl hwf e, rfl, rfl⟩
      | List l =>
        have hh := ihl l e s hwf he hg
        show EvalOutOK s e
          (match evalList fuel l e s with
          | .ok vs s' => .ok (.List vs) s'
          | .err e s' => .err e s'
          | .panic m => .panic m
          | .outOfFuel => .outOfFuel)
        cases hev : evalList fuel l e s with
        | ok vs s' =>
          rw [hev] at hh
          exact ⟨hh.1, hh.2.1, hh.2.2⟩
        | err er s' =>
          rw [hev] at hh
          exact hh
        | panic m => trivial
        | outOfFuel => trivial
      | Vector l => trivial
      | AssocArray l => trivial
      | Fn fe fb fd => trivial
    -- evalList
    · intro l e s hwf he hg
      cases l with
      | nil => exact ⟨StateOK_refl hwf e, rfl, rfl⟩
      | cons v rest =>
        have hg2 : (ValGoodB s.frames.length v &&
            ValGoodListB s.frames.length rest) = true := hg
        rw [Bool.and_eq_true] at hg2
        obtain ⟨hgv, hgrest⟩ := hg2
        rw [evalList_cons_eq]
        cases he1 : eval fuel v e s with
        | panic m => trivial
        | outOfFuel => trivial
        | err er s' =>
          have h1 := ihe v e s hwf he hgv
          rw [he1] at h1
          exact h1
        | ok x s' =>
          have h1 := ihe v e s hwf he hgv
          rw [he1] at h1
          obtain ⟨hst1, hxv, hxr⟩ := h1
          have he' : e < s'.frames.length := by have := hst1.2.1.1; omega
          have hgrest' : ValGoodListB s'.frames.length rest = true :=
            ValGoodListB_mono _ _ _ hst1.2.1.1 hgrest
          have h2 := ihl rest e s' hst1.1 he' hgrest'
          dsimp only []
          cases he2 : evalList fuel rest e s' with
          | panic m => trivial
          | outOfFuel => trivial
          | err er s'' =>
            rw [he2] at h2
            exact ⟨StateOK_step hst1 (.inl rfl) h2.1, h2.2⟩
          | ok xs s'' =>
            rw [he2] at h2
            obtain ⟨hst2, hxsv, hxsr⟩ := h2
            refine ⟨StateOK_step hst1 (.inl rfl) hst2, ?_, ?_⟩
            · show (ValGoodB s''.frames.length x &&
                ValGoodListB s''.frames.length xs) = true
              rw [Bool.and_eq_true]
              exact ⟨ValGoodB_mono _ _ _ hst2.2.1.1 hxv, hxsv⟩
            · show (ResGoodB x && ResGoodListB xs) = true
              rw [Bool.and_eq_true]
              exact ⟨hxr, hxsr⟩
    -- handle_def
    · intro e list s hwf he hg
      rw [handle_def_succ_eq]
      by_cases hlen : list.length ≠ 3
      · rw [if_pos hlen]
        exact ⟨StateOK_refl hwf e, fun m => by simp⟩
      · rw [if_neg hlen]
        have hlen3 : list.length = 3 := by omega
        match list, hlen3, hg with
        | [x, y, e3], _, hg =>
          have hg2 : (ValGoodB s.frames.length x && (ValGoodB s.frames.length y &&
              (ValGoodB s.frames.length e3 && true))) = true := hg
          simp only [Bool.and_eq_true, Bool.and_true] at hg2
          obtain ⟨hgx, hgy, hge3⟩ := hg2
          cases y with
          | Atom a =>
            cases a with
            | Sym n =>
              dsimp only []
              cases heval : eval fuel e3 e s with
              | panic m => trivial
              | outOfFuel => trivial
              | err er s' =>
                have h1 := ihe e3 e s hwf he hge3
                rw [heval] at h1
                exact h1
              | ok v s' =>
                have h1 := ihe e3 e s hwf he hge3
                rw [heval] at h1
                obtain ⟨hst1, hv, hr⟩ := h1
                have he' : e < s'.frames.length := by have := hst1.2.1.1; omega
                refine ⟨⟨wf_set hst1.1 he' hv hr,
                  StExt_trans hst1.2.1 (StExt_set s' e n v),
                  PE_comp hst1.2.1 hst1.2.2 (PE_set s' e n v)
                    (fun i _ hie => hie)⟩, ?_, hr⟩
                rw [set_length]
                exact hv
            | Nil => exact ⟨StateOK_refl hwf e, fun m => by simp⟩
            | True => exact ⟨StateOK_refl hwf e, fun m => by simp⟩
            | False => exact ⟨StateOK_refl hwf e, fun m => by simp⟩
            | Str s2 => exact ⟨StateOK_refl hwf e, fun m => by simp⟩
            | Int i2 => exact ⟨StateOK_refl hwf e, fun m => by simp⟩
          | List l2 => exact ⟨StateOK_refl hwf e, fun m => by simp⟩
          | Vector l2 => exact ⟨StateOK_refl hwf e, fun m => by simp⟩
          | AssocArray l2 => exact ⟨StateOK_refl hwf e, fun m => by simp⟩
          | Fn fe2 fb2 fd2 => exact ⟨StateOK_refl hwf e, fun m => by simp⟩
    -- handle_let
    · intro e list s hwf he hg
      rw [handle_let_succ_eq]
      by_cases hlen : list.length ≠ 3
      · rw [if_pos hlen]
        exact ⟨StateOK_refl hwf s.frames.length, fun m => by simp⟩
      · rw [if_neg hlen]
        have hlen3 : list.length = 3 := by omega
        match list, hlen3, hg with
        | [x, y, body], _, hg =>
          have hg2 : (ValGoodB s.frames.length x && (ValGoodB s.frames.length y &&
              (ValGoodB s.frames.length body && true))) = true := hg
          simp only [Bool.and_eq_true, Bool.and_true] at hg2
          obtain ⟨hgx, hgy, hgbody⟩ := hg2
          cases y with
          | List vars =>
            dsimp only []
            have hwf1 : Wf (createChild s e).1 := wf_createChild hwf he
            have hst1 : StateOK s (createChild s e).1 s.frames.length :=
              ⟨hwf1, StExt_createChild s e, PE_createChild s e s.frames.length⟩
            by_cases hpar : vars.length % 2 ≠ 0
            · rw [if_pos hpar]
              exact ⟨hst1, fun m => by simp⟩
            · rw [if_neg hpar]
              have hch : (createChild s e).2 = s.frames.length := rfl
              have hlen1 : (createChild s e).1.frames.length =
                  s.frames.length + 1 := createChild_length s e
              have hvars1 : ValGoodListB (createChild s e).1.frames.length vars
                  = true := by
                rw [hlen1]
                exact ValGoodListB_mono _ _ _ (by omega)
                  (show ValGoodListB s.frames.length vars = true from hgy)
              have hp := ihp vars (createChild s e).2 (createChild s e).1 hwf1
                (by rw [hch, hlen1]; omega) hvars1
              cases hpr : evalPairs fuel vars (createChild s e).2
                  (createChild s e).1 with
              | panic m => trivial
              | outOfFuel => trivial
              | err er s2 =>
                rw [hpr] at hp
                refine ⟨StateOK_step hst1 (.inr (by rw [hch])) hp.1, hp.2⟩
              | ok u s2 =>
                rw [hpr] at hp
                have hst2 : StateOK s s2 s.frames.length :=
                  StateOK_step hst1 (.inr (by rw [hch])) hp
                have he2 : (createChild s e).2 < s2.frames.length := by
                  have := hp.2.1.1
                  rw [hch]
                  rw [hlen1] at this
                  omega
                have hbody2 : ValGoodB s2.frames.length body = true := by
                  have hle : s.frames.length ≤ s2.frames.length := hst2.2.1.1
                  exact ValGoodB_mono _ _ _ hle hgbody
                have hrun := ihe body (createChild s e).2 s2 hp.1 he2 hbody2
                exact EvalOutOK_absorb hst2 (.inr (by rw [hch])) hrun
          | Atom a2 => exact ⟨StateOK_refl hwf s.frames.length, fun m => by simp⟩
          | Vector l2 => exact ⟨StateOK_refl hwf s.frames.length, fun m => by simp⟩
          | AssocArray l2 => exact ⟨StateOK_refl hwf s.frames.length, fun m => by simp⟩
          | Fn fe2 fb2 fd2 => exact ⟨StateOK_refl hwf s.frames.length, fun m => by simp⟩
    -- evalPairs
    · intro vars c s hwf hc hg
      match vars with
      | [] => exact StateOK_refl hwf c
      | [x] => exact StateOK_refl hwf c
      | sym :: toEval :: rest =>
        have hg2 : (ValGoodB s.frames.length sym && (ValGoodB s.frames.length toEval &&
            ValGoodListB s.frames.length rest)) = true := hg
        simp only [Bool.and_eq_true] at hg2
        obtain ⟨hgsym, hgtoEval, hgrest⟩ := hg2
        rw [evalPairs_pair_eq]
        cases sym with
        | Atom a =>
          cases a with
          | Sym n =>
            dsimp only []
            cases heval : eval fuel toEval c s with
            | panic m => trivial
            | outOfFuel => trivial
            | err er s' =>
              have h1 := ihe toEval c s hwf hc hgtoEval
              rw [heval] at h1
              exact h1
            | ok v s' =>
              have h1 := ihe toEval c s hwf hc hgtoEval
              rw [heval] at h1
              obtain ⟨hst1, hv, hr⟩ := h1
              have hc' : c < s'.frames.length := by have := hst1.2.1.1; omega
              have hwfset : Wf (Environment.set s' c n v) := wf_set hst1.1 hc' hv hr
              have hstset : StateOK s (Environment.set s' c n v) c :=
                StateOK_step hst1 (.inl rfl)
                  ⟨hwfset, StExt_set s' c n v, PE_set s' c n v⟩
              have hrec := ihp rest c (Environment.set s' c n v) hwfset
                (by rw [set_length]; exact hc')
                (by rw [set_length]
                    exact ValGoodListB_mono _ _ _ hst1.2.1.1 hgrest)
              exact EvalOutUnitOK_absorb hstset (.inl rfl) hrec
          | Nil => exact ⟨StateOK_refl hwf c, fun m => by simp⟩
          | True => exact ⟨StateOK_refl hwf c, fun m => by simp⟩
          | False => exact ⟨StateOK_refl hwf c, fun m => by simp⟩
          | Str s2 => exact ⟨StateOK_refl hwf c, fun m => by simp⟩
          | Int i2 => exact ⟨StateOK_refl hwf c, fun m => by simp⟩
        | List l2 => exact ⟨StateOK_refl hwf c, fun m => by simp⟩
        | Vector l2 => exact ⟨StateOK_refl hwf c, fun m => by simp⟩
        | AssocArray l2 => exact ⟨StateOK_refl hwf c, fun m => by simp⟩
        | Fn fe2 fb2 fd2 => exact ⟨StateOK_refl hwf c, fun m => by simp⟩
    -- handle_do
    · intro e list s hwf he hg
      show EvalOutOK s e (evalDo fuel (list.drop 1) e s (.Atom .Nil))
      exact ihevdo (list.drop 1) e s (.Atom .Nil) hwf he (valGoodList_tail hg) rfl rfl
    -- evalDo
    · intro l e s ret hwf he hg hrv hrr
      cases l with
      | nil => exact ⟨StateOK_refl hwf e, hrv, hrr⟩
      | cons v rest =>
        have hg2 : (ValGoodB s.frames.length v &&
            ValGoodListB s.frames.length rest) = true := hg
        rw [Bool.and_eq_true] at hg2
        obtain ⟨hgv, hgrest⟩ := hg2
        rw [evalDo_cons_eq]
        cases heval : eval fuel v e s with
        | panic m => trivial
        | outOfFuel => trivial
        | err er s' =>
          have h1 := ihe v e s hwf he hgv
          rw [heval] at h1
          exact h1
        | ok r s' =>
          have h1 := ihe v e s hwf he hgv
          rw [heval] at h1
          obtain ⟨hst1, hrv', hrr'⟩ := h1
          have he' : e < s'.frames.length := by have := hst1.2.1.1; omega
          have hrec := ihevdo rest e s' r hst1.1 he'
            (ValGoodListB_mono _ _ _ hst1.2.1.1 hgrest) hrv' hrr'
          exact EvalOutOK_absorb hst1 (.inl rfl) hrec


theorem findAux_succ_eq (s : EvalState) (fuel e : Nat) (n : String) :
    Environment.findAux s (fuel + 1) e n =
      (match s.frames[e]? with
      | none => none
      | some fr =>
        if containsKey fr.data n || containsKey fr.builtin n then some e
        else
          match fr.parent with
          | some p => Environment.findAux s fuel p n
          | none => none) := rfl

theorem findAux_congr {s s' : EvalState}
    (hag : ∀ i, i < s.frames.length → s'.frames[i]? = s.frames[i]?)
    (hpl : parentLT s) :
    ∀ (fuel e : Nat) (n : String), e < s.frames.length →
      Environment.findAux s' fuel e n = Environment.findAux s fuel e n := by
  intro fuel
  induction fuel with
  | zero => intro e n he; rfl
  | succ fuel ih =>
    intro e n he
    rw [findAux_succ_eq, findAux_succ_eq, hag e he]
    cases hfr : s.frames[e]? with
    | none => rfl
    | some fr =>
      dsimp only []
      by_cases hc : (containsKey fr.data n || containsKey fr.builtin n) = true
      · rw [if_pos hc, if_pos hc]
      · rw [if_neg hc, if_neg hc]
        cases hp : fr.parent with
        | none => rfl
        | some p =>
          have hlt : p < e := hpl e fr hfr p hp
          exact ih p n (by omega)

theorem get_congr {s s' : EvalState}
    (hag : ∀ i, i < s.frames.length → s'.frames[i]? = s.frames[i]?)
    (hpl : parentLT s) {e : Nat} (he : e < s.frames.length) (n : String) :
    Environment.get s' e n = Environment.get s e n := by
  unfold Environment.get Environment.find
  rw [findAux_congr hag hpl (e + 1) e n he]
  cases hf : Environment.findAux s (e + 1) e n with
  | none => rfl
  | some i =>
    have hi : i < s.frames.length :=
      find_lt (show Environment.find s e n = some i from hf)
    dsimp only []
    rw [hag i hi]

theorem frames_eq_of_out_of_range {s s' : EvalState} {e : Nat}
    (hext : StExt s s') (hpe : PreservedExcept s s' e)
    (he : s.frames.length ≤ e) :
    ∀ i, i < s.frames.length → s'.frames[i]? = s.frames[i]? := by
  intro i hi
  have hfr : s.frames[i]? = some s.frames[i] := List.getElem?_eq_getElem hi
  obtain ⟨fr1, h1, hpar, hbuil⟩ := hext.2 i hi _ hfr
  obtain ⟨fr2, h2, hdata⟩ := hpe i hi (by omega) _ hfr
  rw [h1] at h2
  have hf12 : fr1 = fr2 := by injection h2
  have hdata1 : fr1.data = (s.frames[i]).data := by rw [hf12]; exact hdata
  rw [h1, hfr]
  have : fr1 = s.frames[i] := by
    obtain ⟨p1, b1, d1⟩ := fr1
    obtain ⟨hp, hb, hd⟩ : p1 = (s.frames[i]).parent ∧
        b1 = (s.frames[i]).builtin ∧ d1 = (s.frames[i]).data := ⟨hpar, hbuil, hdata1⟩
    rw [hp, hb, hd]
  rw [this]

theorem get_set_self {s : EvalState} {c : Nat} (hwf : Wf s)
    (hc : c < s.frames.length) (n : String) (v : MalVal) :
    ∃ fr, s.frames[c]? = some fr ∧ frameOkB s.frames.length c fr = true ∧
      Environment.get (Environment.set s c n v) c n =
        (match lookupKey fr.builtin n with
        | some f => some (.NativeFn f)
        | none => some (.Val v)) := by
  obtain ⟨fr, hfr, hok⟩ := wf_frame hwf hc
  refine ⟨fr, hfr, hok, ?_⟩
  have hfr' : (Environment.set s c n v).frames[c]? =
      some ⟨fr.parent, fr.builtin, (n, v) :: fr.data⟩ := by
    rw [set_getElem_eq, hfr]
    rfl
  have hfind : Environment.findAux (Environment.set s c n v) (c + 1) c n =
      some c := by
    rw [findAux_succ_eq, hfr']
    dsimp only []
    rw [if_pos (by simp [containsKey])]
  unfold Environment.get Environment.find
  rw [hfind]
  dsimp only []
  rw [hfr']
  dsimp only []
  cases hlk : lookupKey fr.builtin n with
  | some f => rfl
  | none =>
    dsimp only []
    rw [show lookupKey ((n, v) :: fr.data) n = some v from by simp [lookupKey]]

/-- C10: whenever `eval` runs on a well-formed state, a valid frame index and
a closure-closed input value, the outcome is never the `FunctionUndefined`
error: a head symbol that survives `eval_ast` names a registry entry, and
the second lookup performed at application time therefore always succeeds. -/
theorem eval_never_function_undefined (fuel : Nat) (ast : MalVal) (e : Nat)
    (s : EvalState) (hwf : Wf s) (he : e < s.frames.length)
    (hg : ValGoodB s.frames.length ast = true) :
    isFunctionUndefined (eval fuel ast e s) = false := by
  have h := (eval_props fuel).1 ast e s hwf he hg
  cases hev : eval fuel ast e s with
  | ok v s' => rfl
  | panic m => rfl
  | outOfFuel => rfl
  | err er s' =>
    rw [hev] at h
    cases er with
    | FunctionUndefined m => exact absurd rfl (h.2 m)
    | SymbolNotFound m => rfl
    | NotANumber => rfl
    | NotASymbol => rfl
    | NotAList => rfl
    | BadFunctionDesignator m => rfl
    | InvalidArgs => rfl

theorem eval_never_function_undefined_witness :
    Wf initState ∧ 0 < initState.frames.length ∧
    ValGoodB initState.frames.length (.List [symV "+", intV 1, intV 2]) = true ∧
    isFunctionUndefined (eval 5 (.List [symV "+", intV 1, intV 2]) 0 initState)
      = false :=
  ⟨by decide, by decide, by decide,
    eval_never_function_undefined 5 (.List [symV "+", intV 1, intV 2]) 0 initState
      (by decide) (by decide) (by decide)⟩

/-- C8: when a `let*` form finishes evaluating (normally or with a
recoverable error), every frame that existed before it — in particular the
frame holding an outer `def!` binding of a name the `let*` shadowed — is
unchanged, and every lookup through the original frame answers exactly as
before the `let*`. -/
theorem let_preserves_outer_bindings (fuel : Nat) (rest : List MalVal)
    (e : Nat) (s s' : EvalState) (hwf : Wf s) (he : e < s.frames.length)
    (hg : ValGoodListB s.frames.length (.Atom (.Sym "let*") :: rest) = true)
    (hout : outState? (eval (fuel + 1) (.List (.Atom (.Sym "let*") :: rest)) e s)
      = some s') :
    (∀ i, i < s.frames.length → s'.frames[i]? = s.frames[i]?) ∧
    (∀ n, Environment.get s' e n = Environment.get s e n) := by
  rw [eval_list_cons_eq, if_neg (by decide), if_pos rfl] at hout
  have h := (eval_props fuel).2.2.2.2.1 e (.Atom (.Sym "let*") :: rest) s hwf he hg
  cases hl : handle_let fuel e (.Atom (.Sym "let*") :: rest) s with
  | panic m =>
    rw [hl] at hout
    exact absurd hout (by simp [outState?])
  | outOfFuel =>
    rw [hl] at hout
    exact absurd hout (by simp [outState?])
  | ok v s2 =>
    rw [hl] at hout h
    have hs : s2 = s' := by
      simp only [outState?, Option.some.injEq] at hout
      exact hout
    subst hs
    obtain ⟨hstate, _, _⟩ := h
    have hag := frames_eq_of_out_of_range hstate.2.1 hstate.2.2 le_rfl
    exact ⟨hag, fun n => get_congr hag (wf_parentLT hwf) he n⟩
  | err er s2 =>
    rw [hl] at hout h
    have hs : s2 = s' := by
      simp only [outState?, Option.some.injEq] at hout
      exact hout
    subst hs
    have hag := frames_eq_of_out_of_range h.1.2.1 h.1.2.2 le_rfl
    exact ⟨hag, fun n => get_congr hag (wf_parentLT hwf) he n⟩

theorem let_preserves_outer_bindings_witness :
    Wf (Environment.set initState 0 "x" (intV 1)) ∧
    0 < (Environment.set initState 0 "x" (intV 1)).frames.length ∧
    ValGoodListB (Environment.set initState 0 "x" (intV 1)).frames.length
      (.Atom (.Sym "let*") :: [.List [symV "x", intV 2], symV "x"]) = true ∧
    outState? (eval 5 (.List (.Atom (.Sym "let*") ::
        [.List [symV "x", intV 2], symV "x"])) 0
        (Environment.set initState 0 "x" (intV 1)))
      = some ⟨[⟨none, defaults, [("x", intV 1)]⟩, ⟨some 0, [], [("x", intV 2)]⟩]⟩ ∧
    (⟨[⟨none, defaults, [("x", intV 1)]⟩, ⟨some 0, [], [("x", intV 2)]⟩]⟩ :
        EvalState).frames[0]? =
      (Environment.set initState 0 "x" (intV 1)).frames[0]? ∧
    Environment.get
        ⟨[⟨none, defaults, [("x", intV 1)]⟩, ⟨some 0, [], [("x", intV 2)]⟩]⟩ 0 "x" =
      Environment.get (Environment.set initState 0 "x" (intV 1)) 0 "x" :=
  ⟨by decide, by decide, by decide, by decide,
    (let_preserves_outer_bindings 4 [.List [symV "x", intV 2], symV "x"] 0
      (Environment.set initState 0 "x" (intV 1))
      ⟨[⟨none, defaults, [("x", intV 1)]⟩, ⟨some 0, [], [("x", intV 2)]⟩]⟩
      (by decide) (by decide) (by decide) (by decide)).1 0 (by decide),
    (let_preserves_outer_bindings 4 [.List [symV "x", intV 2], symV "x"] 0
      (Environment.set initState 0 "x" (intV 1))
      ⟨[⟨none, defaults, [("x", intV 1)]⟩, ⟨some 0, [], [("x", intV 2)]⟩]⟩
      (by decide) (by decide) (by decide) (by decide)).2 "x"⟩

/-- C2: corrected lookup order.  Lookup walks the frame chain outward and
stops at the first frame whose bindings or registry hold the name; within
that frame the registry wins.  Hence a binding set in a non-root frame is
found as that binding (child frames carry no registry), while a binding set
in the root frame for a registry name is answered by the native-function
marker. -/
theorem lookup_order_spec :
    (∀ (s : EvalState) (c : Nat) (n : String) (v : MalVal),
      Wf s → c < s.frames.length → c ≠ 0 →
        Environment.get (Environment.set s c n v) c n = some (.Val v)) ∧
    (∀ (n : String) (f : NativeFn), lookupKey defaults n = some f →
      ∀ (s : EvalState) (v : MalVal), Wf s →
        Environment.get (Environment.set s 0 n v) 0 n = some (.NativeFn f)) := by
  constructor
  · intro s c n v hwf hc hc0
    obtain ⟨fr, hfr, hok, hget⟩ := get_set_self hwf hc n v
    rw [hget, (frameOk_child hc0 hok).2]
    rfl
  · intro n f hf s v hwf
    obtain ⟨fr, hfr, hok, hget⟩ := get_set_self hwf (wf_nonempty hwf) n v
    rw [hget, (frameOk_root hok).2, hf]

theorem lookup_order_spec_witness :
    Wf (createChild initState 0).1 ∧ 1 < (createChild initState 0).1.frames.length ∧
    Environment.get (Environment.set (createChild initState 0).1 1 "+" (intV 9))
      1 "+" = some (.Val (intV 9)) ∧
    lookupKey defaults "+" = some .add ∧ Wf initState ∧
    Environment.get (Environment.set initState 0 "+" (intV 9)) 0 "+" =
      some (.NativeFn .add) :=
  ⟨by decide, by decide,
    lookup_order_spec.1 (createChild initState 0).1 1 "+" (intV 9)
      (by decide) (by decide) (by decide),
    by decide, by decide,
    lookup_order_spec.2 "+" .add (by decide) initState (intV 9) (by decide)⟩
